import Mathlib

/-!
# A verification development for `cpp-simple-vector`

Shallow embedding of `simple-vector/array_ptr.h` and `simple-vector/simple_vector.h`.

Conventions of the embedding.

* A heap block of `Type` objects is a `List α`; a raw pointer to the first element of
  a block is `Option (List α)` (`none` is `nullptr`).
* An iterator of `SimpleVector` is a raw pointer into the block of `items_`; it is
  represented by its offset from `begin()`.
* `size_t` values are natural numbers.  A block of `2^63` or more elements cannot be
  allocated, so `capacity_ * 2` and `capacity_ + 1` never wrap in a state the program
  can reach.  The loop counter `int i` of `Insert` is a 32 bit signed integer and the
  conversion `int i = size_` is modelled with its wrap-around (`toInt32`).
* The template parameter `Type` is abstracted by the class `Elem`: the value of
  `Type()`, the content of the slots that `new Type[n]` hands out, and the state in
  which a value is left after it was the source of a move.
* An access outside the owned block is undefined behaviour in the source; in the
  embedding such a read yields `Type()` and such a write does nothing.  The theorems on
  the content of the slots are stated under the representation invariant
  `SimpleVector.Valid`, under which the accesses of the operation concerned are inside
  the block.
* A failed `assert` is the result `none`; the exception thrown by `At` is
  `Except.error`.
* An argument passed by reference (`const Type &` or `Type &&`) is an `Arg`: a
  reference to an object outside the vector, given by the value the object holds, or a
  reference to a slot of the block of the vector the call is made on.  The argument is
  read at the point where the source reads it, from the block as it is then.  A read
  through a reference into a block that has been freed is undefined behaviour in the
  source; in the embedding it yields the unspecified value `Elem.freed`.  For an
  argument passed as `Type &&` the operation also returns the state in which the object
  referred to is left.  A reference returned by an accessor is represented by the value
  read through it.
-/

namespace SimpleVectorVerif

/-! ## The element type -/

/-- Interface of the template parameter `Type`: `dflt` is the value of `Type()`,
`fresh i` is the content of slot `i` of a block just obtained from `new Type[n]`
(`Type()` for class types, indeterminate for scalar types), `movedFrom x` is the state
in which an object holding `x` is left after `std::move` handed its value over, and
`freed i` is what a read of slot `i` of a block yields after the block was given back with
`delete[]` (the read is undefined behaviour; `freed` stands for whatever it produces). -/
class Elem (α : Type) where
  dflt : α
  fresh : Nat → α
  movedFrom : α → α
  freed : Nat → α

/-- An element type used for the concrete instances below: a handle whose default value is
`0`, whose moved-from state is `0`, whose freshly allocated slots hold `100 + i`, and for
which a read of slot `i` of a freed block yields `900 + i`. -/
instance instElemNat : Elem Nat where
  dflt := 0
  fresh := fun i => 100 + i
  movedFrom := fun _ => 0
  freed := fun i => 900 + i

/-- Conversion of a `size_t` to a 32 bit `int` (`int i = size_`): reduction modulo `2^32`
followed by the two's complement reading. -/
def toInt32 (x : Nat) : Int :=
  if x % 2 ^ 32 < 2 ^ 31 then ((x % 2 ^ 32 : Nat) : Int) else ((x % 2 ^ 32 : Nat) : Int) - 2 ^ 32

/-! ## `ArrayPtr` -/

/-- The class `ArrayPtr<Type>`: its only field is the raw pointer `raw_ptr_`. -/
structure ArrayPtr (α : Type) where
  raw_ptr_ : Option (List α)
deriving DecidableEq, Repr

namespace ArrayPtr

variable {α : Type}

/-- The default constructor `ArrayPtr() = default`: `raw_ptr_ = nullptr`. -/
def null : ArrayPtr α := ⟨none⟩

/-- The constructor `explicit ArrayPtr(size_t size)`: `new Type[size]` when `size != 0`,
`nullptr` otherwise. -/
def ofSize [Elem α] (size : Nat) : ArrayPtr α :=
  if size ≠ 0 then ⟨some ((List.range size).map Elem.fresh)⟩ else ⟨none⟩

/-- The constructor `explicit ArrayPtr(Type *raw_ptr)`. -/
def ofRaw (raw_ptr : Option (List α)) : ArrayPtr α := ⟨raw_ptr⟩

/-- The move constructor `ArrayPtr(ArrayPtr &&other)`: the new object and `other` afterwards. -/
def moveCtor (other : ArrayPtr α) : ArrayPtr α × ArrayPtr α :=
  (⟨other.raw_ptr_⟩, ⟨none⟩)

/-- The move assignment `operator=(ArrayPtr &&other)` between two distinct objects: the
pointer of `other` is taken over (the block owned before is not freed), `other` becomes
null.  The result is the pair of `*this` and `other` afterwards. -/
def moveAssign (_self other : ArrayPtr α) : ArrayPtr α × ArrayPtr α :=
  (⟨other.raw_ptr_⟩, ⟨none⟩)

/-- The move assignment `operator=(ArrayPtr &&other)` when `this == &other`: nothing
happens. -/
def moveAssignSelf (self : ArrayPtr α) : ArrayPtr α := self

/-- The method `Release`: the address that was held, and the object afterwards. -/
def Release (p : ArrayPtr α) : Option (List α) × ArrayPtr α :=
  (p.raw_ptr_, ⟨none⟩)

/-- The method `Get`. -/
def Get (p : ArrayPtr α) : Option (List α) := p.raw_ptr_

/-- The conversion `explicit operator bool()`. -/
def toBool (p : ArrayPtr α) : Bool := p.raw_ptr_.isSome

/-- The method `swap`: the pair of `*this` and `other` afterwards. -/
def swap (self other : ArrayPtr α) : ArrayPtr α × ArrayPtr α :=
  let b := other.raw_ptr_
  (⟨b⟩, ⟨self.raw_ptr_⟩)

/-- The block the pointer refers to (empty for `nullptr`). -/
def block (p : ArrayPtr α) : List α := p.raw_ptr_.getD []

/-- Reading through `operator[]`: `*(raw_ptr_ + index)`. -/
def read [Elem α] (p : ArrayPtr α) (index : Nat) : α :=
  (p.block)[index]?.getD Elem.dflt

/-- Writing through `operator[]`: `*(raw_ptr_ + index) = x`. -/
def write (p : ArrayPtr α) (index : Nat) (x : α) : ArrayPtr α :=
  ⟨p.raw_ptr_.map (fun b => b.set index x)⟩

end ArrayPtr

/-! ## Arguments passed by reference -/

/-- An argument of type `const Type &` or `Type &&` of a method of `SimpleVector`: the
object referred to is either an object outside the vector, which holds `x`, or the slot
`items_[k]` of the vector on which the method is called (as in `v.PushBack(v[k])`). -/
inductive Arg (α : Type) where
  | ext (x : α)
  | slot (k : Nat)
deriving DecidableEq, Repr

namespace Arg

variable {α : Type}

/-- Reading through the reference while the block that `items_` owned when the call was
made is still allocated and holds `p`. -/
def read [Elem α] (item : Arg α) (p : ArrayPtr α) : α :=
  match item with
  | ext x => x
  | slot k => p.read k

/-- Reading through the reference after the block that `items_` owned when the call was
made has been freed: an object outside the vector is unaffected, a reference to a slot of
that block dangles. -/
def read_freed [Elem α] (item : Arg α) : α :=
  match item with
  | ext x => x
  | slot k => Elem.freed k

/-- The block `p` after a move assignment has taken the value `x` out of the object
referred to: a slot of the block is left in the moved-from state, an object outside the
vector leaves the block as it is. -/
def moved_out [Elem α] (item : Arg α) (p : ArrayPtr α) (x : α) : ArrayPtr α :=
  match item with
  | ext _ => p
  | slot k => p.write k (Elem.movedFrom x)

end Arg

/-! ## Standard algorithms used by the source -/

section Algorithms

variable {α : Type}

/-- The algorithm `std::fill(first, last, value)` on a block: `*first = value` for every
position of the range. -/
def std_fill (p : ArrayPtr α) (first last : Nat) (value : α) : ArrayPtr α :=
  (List.range (last - first)).foldl (fun q k => q.write (first + k) value) p

/-- The algorithm `std::copy(first, last, d_first)` from a readable range (given by the
function `src` that dereferences position `i`) into a block that the source range does not
overlap: `*d_first++ = *first++` until `first` reaches `last`. -/
def std_copy (src : Nat → α) (first last : Nat) (dst : ArrayPtr α) (d_first : Nat) :
    ArrayPtr α :=
  (List.range (last - first)).foldl (fun q k => q.write (d_first + k) (src (first + k))) dst

/-- The algorithm `std::copy` called with `std::make_move_iterator` on a source block and a
distinct destination block: every assignment moves, so the source slot is left in the
moved-from state.  The result is the pair of the source and the destination afterwards. -/
def std_copy_move [Elem α] (src : ArrayPtr α) (first last : Nat) (dst : ArrayPtr α)
    (d_first : Nat) : ArrayPtr α × ArrayPtr α :=
  (List.range (last - first)).foldl
    (fun st k =>
      let x := st.1.read (first + k)
      (st.1.write (first + k) (Elem.movedFrom x), st.2.write (d_first + k) x))
    (src, dst)

/-- The algorithm `std::copy` called with `std::make_move_iterator` when the source range
and the destination lie in the same block (the call made by `Erase`): step `k` assigns
slot `d_first + k` from slot `first + k` and leaves the latter in the moved-from state. -/
def std_copy_move_within [Elem α] (p : ArrayPtr α) (first last : Nat) (d_first : Nat) :
    ArrayPtr α :=
  (List.range (last - first)).foldl
    (fun q k =>
      let x := q.read (first + k)
      (q.write (d_first + k) x).write (first + k) (Elem.movedFrom x))
    p

/-- The loop of `std::equal` after its length test: compares `count` consecutive
positions with `operator==` of the elements and stops at the first difference. -/
def std_equal_loop [Elem α] [DecidableEq α] (p q : ArrayPtr α) : Nat → Nat → Nat → Bool
  | 0, _, _ => true
  | count + 1, first1, first2 =>
    if p.read first1 = q.read first2 then std_equal_loop p q count (first1 + 1) (first2 + 1)
    else false

/-- The four iterator form of `std::equal` on random access ranges: ranges of different
length are unequal, otherwise the elements are compared pairwise. -/
def std_equal [Elem α] [DecidableEq α] (p : ArrayPtr α) (first1 last1 : Nat)
    (q : ArrayPtr α) (first2 last2 : Nat) : Bool :=
  if last1 - first1 ≠ last2 - first2 then false
  else std_equal_loop p q (last1 - first1) first1 first2

/-- The loop of `std::lexicographical_compare`:
`for (; first1 != last1 && first2 != last2; ++first1, ++first2)` with the two tests of the
body, followed by `return first1 == last1 && first2 != last2`.  The first argument counts
the positions left in the first range, so the loop test has failed when it is `0`. -/
def lexicographical_compare_loop [Elem α] [LT α] [DecidableRel (fun a b : α => a < b)]
    (p q : ArrayPtr α) (last1 last2 : Nat) : Nat → Nat → Nat → Bool
  | 0, first1, first2 => decide (first1 = last1) && decide (first2 ≠ last2)
  | left + 1, first1, first2 =>
    if first1 ≠ last1 ∧ first2 ≠ last2 then
      if p.read first1 < q.read first2 then true
      else if q.read first2 < p.read first1 then false
      else lexicographical_compare_loop p q last1 last2 left (first1 + 1) (first2 + 1)
    else decide (first1 = last1) && decide (first2 ≠ last2)

/-- The algorithm `std::lexicographical_compare(first1, last1, first2, last2)`. -/
def std_lexicographical_compare [Elem α] [LT α] [DecidableRel (fun a b : α => a < b)]
    (p : ArrayPtr α) (first1 last1 : Nat) (q : ArrayPtr α) (first2 last2 : Nat) : Bool :=
  lexicographical_compare_loop p q last1 last2 (last1 - first1) first1 first2

end Algorithms

/-! ## `SimpleVector` -/

/-- The class `ReserveProxyObj`: the capacity asked for. -/
structure ReserveProxyObj where
  capacity_to_reserve_ : Nat
deriving DecidableEq, Repr

/-- The method `ReserveProxyObj::capacity`. -/
def ReserveProxyObj.capacity (obj : ReserveProxyObj) : Nat := obj.capacity_to_reserve_

/-- The free function `Reserve(size_t capacity_to_reserve)`. -/
def Reserve (capacity_to_reserve : Nat) : ReserveProxyObj := ⟨capacity_to_reserve⟩

/-- The exception thrown by `At`. -/
inductive Exception where
  | out_of_range (what : String)
deriving DecidableEq, Repr

/-- The class `SimpleVector<Type>` with its three fields. -/
structure SimpleVector (α : Type) where
  items_ : ArrayPtr α
  size_ : Nat
  capacity_ : Nat
deriving DecidableEq, Repr

namespace SimpleVector

variable {α : Type}

/-- The constructor `SimpleVector() noexcept = default`. -/
def ctor_default : SimpleVector α := ⟨ArrayPtr.null, 0, 0⟩

/-- The constructor `SimpleVector(size_t size, const Type &value)`. -/
def ctor_fill [Elem α] (size : Nat) (value : α) : SimpleVector α :=
  ⟨std_fill (ArrayPtr.ofSize size) 0 size value, size, size⟩

/-- The constructor `SimpleVector(size_t size, Type &&value)`: the loop
`items_[i] = std::move(value)` moves from the same object at every step.  The result is
the vector and the state in which `value` is left. -/
def ctor_fill_move [Elem α] (size : Nat) (value : α) : SimpleVector α × α :=
  let r := (List.range size).foldl
    (fun st i => (st.1.write i st.2, Elem.movedFrom st.2))
    ((ArrayPtr.ofSize size : ArrayPtr α), value)
  (⟨r.1, size, size⟩, r.2)

/-- The constructor `explicit SimpleVector(size_t size)`, which delegates to
`SimpleVector(size, std::move(Type()))`. -/
def ctor_size [Elem α] (size : Nat) : SimpleVector α :=
  (ctor_fill_move size (Elem.dflt : α)).1

/-- The constructor `SimpleVector(std::initializer_list<Type> init)`. -/
def ctor_init [Elem α] (init : List α) : SimpleVector α :=
  ⟨std_copy (fun i => init[i]?.getD Elem.dflt) 0 init.length (ArrayPtr.ofSize init.length) 0,
    init.length, init.length⟩

/-- The copy constructor `SimpleVector(const SimpleVector &other)`. -/
def ctor_copy [Elem α] (other : SimpleVector α) : SimpleVector α :=
  ⟨std_copy other.items_.read 0 other.size_ (ArrayPtr.ofSize other.capacity_) 0,
    other.size_, other.capacity_⟩

/-- The method `swap`: the pair of `*this` and `other` afterwards. -/
def swap (self other : SimpleVector α) : SimpleVector α × SimpleVector α :=
  let items := ArrayPtr.swap self.items_ other.items_
  (⟨items.1, other.size_, other.capacity_⟩, ⟨items.2, self.size_, self.capacity_⟩)

/-- The copy assignment `operator=(const SimpleVector &rhs)` between two distinct objects:
a copy of `rhs` is built and swapped in. -/
def copy_assign [Elem α] (self rhs : SimpleVector α) : SimpleVector α :=
  let new_vec := ctor_copy rhs
  (swap self new_vec).1

/-- The copy assignment when `this == &rhs`: returns at once. -/
def copy_assign_self (self : SimpleVector α) : SimpleVector α := self

/-- The move constructor `SimpleVector(SimpleVector &&other)`: the members start from
their default initialisers, then the handle is move-assigned and the two counters are
swapped and reset in `other`.  The result is the new vector and `other` afterwards. -/
def ctor_move (other : SimpleVector α) : SimpleVector α × SimpleVector α :=
  let items := ArrayPtr.moveAssign (ArrayPtr.null : ArrayPtr α) other.items_
  (⟨items.1, other.size_, other.capacity_⟩, ⟨items.2, 0, 0⟩)

/-- The move assignment `operator=(SimpleVector &&rhs)` between two distinct objects: the
pair of `*this` and `rhs` afterwards. -/
def move_assign (self rhs : SimpleVector α) : SimpleVector α × SimpleVector α :=
  let items := ArrayPtr.moveAssign self.items_ rhs.items_
  (⟨items.1, rhs.size_, rhs.capacity_⟩, ⟨items.2, 0, 0⟩)

/-- The move assignment when `this == &rhs`: returns at once. -/
def move_assign_self (self : SimpleVector α) : SimpleVector α := self

/-- The constructor `SimpleVector(ReserveProxyObj obb)`. -/
def ctor_reserve [Elem α] (obb : ReserveProxyObj) : SimpleVector α :=
  let arr : ArrayPtr α := ArrayPtr.ofSize obb.capacity
  let items := ArrayPtr.swap (ArrayPtr.null : ArrayPtr α) arr
  ⟨items.1, 0, obb.capacity⟩

/-- The method `Reserve(size_t capacity_to_reserve)`. -/
def Reserve [Elem α] (v : SimpleVector α) (capacity_to_reserve : Nat) : SimpleVector α :=
  if v.capacity_ ≥ capacity_to_reserve then v
  else
    let new_cap := capacity_to_reserve
    let new_items : ArrayPtr α := ArrayPtr.ofSize new_cap
    let moved := std_copy_move v.items_ 0 v.size_ new_items 0
    let items := ArrayPtr.swap moved.1 moved.2
    ⟨items.1, v.size_, new_cap⟩

/-- The method `GetSize`. -/
def GetSize (v : SimpleVector α) : Nat := v.size_

/-- The method `GetCapacity`. -/
def GetCapacity (v : SimpleVector α) : Nat := v.capacity_

/-- The method `IsEmpty`. -/
def IsEmpty (v : SimpleVector α) : Bool := decide (v.size_ = 0)

/-- The method `operator[]`: `assert(size_)`, then `items_[index]`. -/
def index [Elem α] (v : SimpleVector α) (index : Nat) : Option α :=
  if v.size_ = 0 then none else some (v.items_.read index)

/-- The method `At`: throws `std::out_of_range` when `index >= size_`, otherwise yields
`items_[index]`.  The second component is the vector after the call. -/
def At [Elem α] (v : SimpleVector α) (index : Nat) : Except Exception α × SimpleVector α :=
  if index ≥ v.size_ then (Except.error (Exception.out_of_range ""), v)
  else (Except.ok (v.items_.read index), v)

/-- The method `Clear`. -/
def Clear (v : SimpleVector α) : SimpleVector α := { v with size_ := 0 }

/-- The loop `for (size_t i = size_; i < new_size; ++i) items[i] = std::move(Type())` of
`Resize`. -/
def resize_fill [Elem α] (items : ArrayPtr α) (size new_size : Nat) : ArrayPtr α :=
  (List.range (new_size - size)).foldl (fun q k => q.write (size + k) Elem.dflt) items

/-- The method `Resize(size_t new_size)`. -/
def Resize [Elem α] (v : SimpleVector α) (new_size : Nat) : SimpleVector α :=
  if new_size ≤ v.size_ then { v with size_ := new_size }
  else if new_size ≤ v.capacity_ then
    { v with items_ := resize_fill v.items_ v.size_ new_size, size_ := new_size }
  else
    let new_cap := max new_size (v.capacity_ * 2)
    let new_items : ArrayPtr α := ArrayPtr.ofSize new_cap
    let moved := std_copy_move v.items_ 0 v.size_ new_items 0
    let new_items := resize_fill moved.2 v.size_ new_size
    let items := ArrayPtr.swap moved.1 new_items
    ⟨items.1, new_size, new_cap⟩

/-- The method `PushBack(const Type &item)`.  In the branch `size_ == capacity_` the call
`Resize(capacity_ + 1)` takes the third branch of `Resize` (`capacity_ + 1` exceeds both
`size_` and `capacity_`): the elements are moved to a new block and the old block is freed
when `Resize` returns, so the assignment `items_[pos] = item` reads `item` after the block
it may refer to was freed.  In the other branch `item` is read from the block as it is. -/
def PushBack [Elem α] (v : SimpleVector α) (item : Arg α) : SimpleVector α :=
  let pos := v.size_
  if v.size_ = v.capacity_ then
    let v1 := Resize v (v.capacity_ + 1)
    { v1 with items_ := v1.items_.write pos item.read_freed }
  else
    let v1 := { v with size_ := v.size_ + 1 }
    { v1 with items_ := v1.items_.write pos (item.read v1.items_) }

/-- The method `PushBack(Type &&item)`: as `PushBack`, with the move assignment
`items_[pos] = std::move(item)`, which leaves the object referred to in the moved-from
state (a slot of the block in the branch without growth).  The result is the vector
afterwards and the state in which the object referred to is left. -/
def PushBack_move [Elem α] (v : SimpleVector α) (item : Arg α) : SimpleVector α × α :=
  let pos := v.size_
  if v.size_ = v.capacity_ then
    let v1 := Resize v (v.capacity_ + 1)
    let x := item.read_freed
    ({ v1 with items_ := v1.items_.write pos x }, Elem.movedFrom x)
  else
    let v1 := { v with size_ := v.size_ + 1 }
    let x := item.read v1.items_
    ({ v1 with items_ := item.moved_out (v1.items_.write pos x) x }, Elem.movedFrom x)

/-- The loop `for (int i = size_; i > n; --i) items_[i] = std::move(items_[i - 1])` of the
in-place branch of `Insert`, from the state in which the counter is `i`.  The first
argument bounds the number of iterations; the loop test is evaluated at every step. -/
def insert_shift [Elem α] (n : Int) : Nat → Int → ArrayPtr α → ArrayPtr α
  | 0, _, items => items
  | fuel + 1, i, items =>
    if i > n then
      let x := items.read (i - 1).toNat
      insert_shift n fuel (i - 1)
        ((items.write i.toNat x).write (i - 1).toNat (Elem.movedFrom x))
    else items

/-- The method `Insert(ConstIterator pos, const Type &value)`, with `pos` given by its
offset from `begin()`.  The result is the vector afterwards and the offset of the returned
iterator from the new `begin()`; `none` is the failed `assert`.  In the in-place branch
`value` is read after the shifting loop, from the block as the loop left it; in the growth
branch it is read before `swap`, while the old block is still owned and unchanged. -/
def Insert [Elem α] (v : SimpleVector α) (pos : Nat) (value : Arg α) :
    Option (SimpleVector α × Nat) :=
  if ¬ pos ≤ v.size_ then none
  else
    let n : Int := (pos : Int)
    if v.capacity_ = 0 then some (PushBack v value, 0)
    else if v.size_ < v.capacity_ then
      let i := toInt32 v.size_
      let items := insert_shift n (i - n).toNat i v.items_
      let items := items.write n.toNat (value.read items)
      some (⟨items, v.size_ + 1, v.capacity_⟩, pos)
    else
      let new_vec : SimpleVector α := ctor_size (v.capacity_ * 2)
      let items := std_copy v.items_.read 0 pos new_vec.items_ 0
      let items := std_copy v.items_.read pos v.size_ items (pos + 1)
      let items := items.write pos (value.read v.items_)
      let old_size := v.size_
      let swapped := swap v { new_vec with items_ := items }
      some ({ swapped.1 with size_ := old_size + 1 }, pos)

/-- The method `Insert(ConstIterator pos, Type &&value)`: as `Insert`, with the elements
moved into the new block in the growth branch and `value` moved from.  In the in-place
branch `value` is read after the shifting loop; in the growth branch it is read from the
old block after the elements were moved out of it.  The third component is the state in
which the object referred to is left. -/
def Insert_move [Elem α] (v : SimpleVector α) (pos : Nat) (value : Arg α) :
    Option (SimpleVector α × Nat × α) :=
  if ¬ pos ≤ v.size_ then none
  else
    let n : Int := (pos : Int)
    if v.capacity_ = 0 then
      let r := PushBack_move v value
      some (r.1, 0, r.2)
    else if v.size_ < v.capacity_ then
      let i := toInt32 v.size_
      let items := insert_shift n (i - n).toNat i v.items_
      let x := value.read items
      let items := value.moved_out (items.write n.toNat x) x
      some (⟨items, v.size_ + 1, v.capacity_⟩, pos, Elem.movedFrom x)
    else
      let new_vec : SimpleVector α := ctor_size (v.capacity_ * 2)
      let m1 := std_copy_move v.items_ 0 pos new_vec.items_ 0
      let m2 := std_copy_move m1.1 pos v.size_ m1.2 (pos + 1)
      let x := value.read m2.1
      let items := m2.2.write pos x
      let old := value.moved_out m2.1 x
      let old_size := v.size_
      let swapped := swap { v with items_ := old } { new_vec with items_ := items }
      some ({ swapped.1 with size_ := old_size + 1 }, pos, Elem.movedFrom x)

/-- The method `PopBack`: `assert(size_)`, then `--size_`. -/
def PopBack (v : SimpleVector α) : Option (SimpleVector α) :=
  if v.size_ = 0 then none else some { v with size_ := v.size_ - 1 }

/-- The method `Erase(ConstIterator pos)`, with `pos` given by its offset from `begin()`.
The result is the vector afterwards and the offset of the returned iterator; `none` is a
failed `assert`. -/
def Erase [Elem α] (v : SimpleVector α) (pos : Nat) : Option (SimpleVector α × Nat) :=
  if ¬ pos < v.size_ then none
  else if v.size_ = 0 then none
  else
    let n := pos
    let items := std_copy_move_within v.items_ (n + 1) v.size_ n
    some (⟨items, v.size_ - 1, v.capacity_⟩, n)

/-- The operator `==`. -/
def eq [Elem α] [DecidableEq α] (lhs rhs : SimpleVector α) : Bool :=
  if lhs.GetSize ≠ rhs.GetSize then false
  else std_equal lhs.items_ 0 (0 + lhs.GetSize) rhs.items_ 0 (0 + rhs.GetSize)

/-- The operator `!=`. -/
def ne [Elem α] [DecidableEq α] (lhs rhs : SimpleVector α) : Bool :=
  !(eq lhs rhs)

/-- The operator `<`. -/
def lt [Elem α] [LT α] [DecidableRel (fun a b : α => a < b)] (lhs rhs : SimpleVector α) :
    Bool :=
  std_lexicographical_compare lhs.items_ 0 lhs.size_ rhs.items_ 0 rhs.size_

/-- The operator `<=`. -/
def le [Elem α] [LT α] [DecidableRel (fun a b : α => a < b)] (lhs rhs : SimpleVector α) :
    Bool :=
  !(lt rhs lhs)

/-- The operator `>`. -/
def gt [Elem α] [LT α] [DecidableRel (fun a b : α => a < b)] (lhs rhs : SimpleVector α) :
    Bool :=
  lt rhs lhs

/-- The operator `>=`. -/
def ge [Elem α] [LT α] [DecidableRel (fun a b : α => a < b)] (lhs rhs : SimpleVector α) :
    Bool :=
  !(lt lhs rhs)

/-! ## Observations and the representation invariant -/

/-- The live elements: what a traversal from `begin()` to `end()` reads. -/
def toList [Elem α] (v : SimpleVector α) : List α :=
  (List.range v.size_).map (fun i => v.items_.read i)

/-- The representation invariant: `size_` does not exceed `capacity_`, and `capacity_` is
the number of slots of the block owned by `items_`. -/
def Valid (v : SimpleVector α) : Prop :=
  v.size_ ≤ v.capacity_ ∧ v.items_.block.length = v.capacity_

instance instDecidableValid (v : SimpleVector α) : Decidable v.Valid := by
  unfold Valid
  exact inferInstance

/-- The number of times the body of the in-place loop of `Insert` is executed from the
state in which the counter is `i`: the loop test and the bound on the iterations are those
of `insert_shift`. -/
def insert_shift_steps (n : Int) : Nat → Int → Nat
  | 0, _ => 0
  | fuel + 1, i => if i > n then insert_shift_steps n fuel (i - 1) + 1 else 0

/-- The vector obtained from a default-constructed one by calling `PushBack` with the
given arguments, in order. -/
def pushAll [Elem α] (items : List (Arg α)) : SimpleVector α :=
  items.foldl PushBack ctor_default

end SimpleVector

/-! ## Sample vectors and sample runs -/

/-- A vector with three live elements and one spare slot. -/
def sampleRoom : SimpleVector Nat := ⟨⟨some [1, 2, 3, 103]⟩, 3, 4⟩

/-- A vector whose two slots are both live. -/
def sampleFull : SimpleVector Nat := ⟨⟨some [1, 2]⟩, 2, 2⟩

/-- A vector with `2^31` live elements (the first is `5`, the others `0`) and one spare
slot: its size is the least one that `int` cannot hold. -/
def sampleHuge : SimpleVector Nat :=
  ⟨⟨some (5 :: List.replicate 2147483648 0)⟩, 2147483648, 2147483649⟩

/-- The vector left by `Insert(begin(), 9)` on `sampleHuge`. -/
def sampleHugeAfter : SimpleVector Nat :=
  ⟨⟨some (9 :: List.replicate 2147483648 0)⟩, 2147483649, 2147483649⟩

/-- An element type whose `operator<` compares the key alone: two elements with the same
key and different tags are different, and neither is smaller than the other. -/
structure Keyed where
  key : Nat
  tag : Nat
deriving DecidableEq, Repr

instance instLTKeyed : LT Keyed := ⟨fun a b => a.key < b.key⟩

instance instDecidableLTKeyed : DecidableRel (fun a b : Keyed => a < b) :=
  fun a b => inferInstanceAs (Decidable (a.key < b.key))

instance instElemKeyed : Elem Keyed where
  dflt := ⟨0, 0⟩
  fresh := fun _ => ⟨0, 0⟩
  movedFrom := fun x => x
  freed := fun _ => ⟨0, 0⟩

/-- The vector with the live elements `(key 1, tag 0), (key 0, tag 0)`. -/
def keyedA : SimpleVector Keyed := ⟨⟨some [⟨1, 0⟩, ⟨0, 0⟩]⟩, 2, 2⟩

/-- The vector with the live elements `(key 1, tag 1), (key 5, tag 0)`. -/
def keyedB : SimpleVector Keyed := ⟨⟨some [⟨1, 1⟩, ⟨5, 0⟩]⟩, 2, 2⟩

example : (SimpleVector.PushBack (SimpleVector.PushBack (SimpleVector.PushBack
    (SimpleVector.ctor_default : SimpleVector Nat) (Arg.ext 1)) (Arg.ext 2)) (Arg.ext 3))
    = ⟨⟨some [1, 2, 3, 103]⟩, 3, 4⟩ := by decide

example : SimpleVector.Insert (⟨⟨some [1, 2, 3, 103]⟩, 3, 4⟩ : SimpleVector Nat) 1 (Arg.ext 99)
    = some (⟨⟨some [1, 99, 2, 3]⟩, 4, 4⟩, 1) := by decide

example : SimpleVector.Insert (⟨⟨some [1, 2, 3, 103]⟩, 3, 4⟩ : SimpleVector Nat) 0 (Arg.slot 2)
    = some (⟨⟨some [2, 1, 2, 3]⟩, 4, 4⟩, 0) := by decide

example : SimpleVector.PushBack (⟨⟨some [1, 2, 3, 103]⟩, 3, 4⟩ : SimpleVector Nat) (Arg.slot 0)
    = ⟨⟨some [1, 2, 3, 1]⟩, 4, 4⟩ := by decide

example : SimpleVector.PushBack (⟨⟨some [1, 2]⟩, 2, 2⟩ : SimpleVector Nat) (Arg.slot 0)
    = ⟨⟨some [1, 2, 900, 103]⟩, 3, 4⟩ := by decide

example : SimpleVector.PushBack_move (⟨⟨some [1, 2, 3, 103]⟩, 3, 4⟩ : SimpleVector Nat)
    (Arg.slot 0) = (⟨⟨some [0, 2, 3, 1]⟩, 4, 4⟩, 0) := by decide

example : SimpleVector.Insert_move (⟨⟨some [1, 2]⟩, 2, 2⟩ : SimpleVector Nat) 1 (Arg.slot 0)
    = some (⟨⟨some [1, 0, 2, 0]⟩, 3, 4⟩, 1, 0) := by decide

example : SimpleVector.Erase (⟨⟨some [1, 99, 2, 3]⟩, 4, 4⟩ : SimpleVector Nat) 1
    = some (⟨⟨some [1, 2, 3, 0]⟩, 3, 4⟩, 1) := by decide

example : SimpleVector.Insert (⟨⟨some [1, 2]⟩, 2, 2⟩ : SimpleVector Nat) 1 (Arg.ext 99)
    = some (⟨⟨some [1, 99, 2, 0]⟩, 3, 4⟩, 1) := by decide

example : (SimpleVector.At (⟨⟨some [1, 2, 3, 0]⟩, 3, 4⟩ : SimpleVector Nat) 5).1
    = Except.error (Exception.out_of_range "") := rfl

/-! ## Lemmas on `ArrayPtr` -/

namespace ArrayPtr

variable {α : Type}

theorem block_write (p : ArrayPtr α) (i : Nat) (x : α) :
    (p.write i x).block = p.block.set i x := by
  cases p with
  | mk r => cases r <;> simp [write, block]

theorem length_write (p : ArrayPtr α) (i : Nat) (x : α) :
    (p.write i x).block.length = p.block.length := by
  simp [block_write]

theorem read_write [Elem α] (p : ArrayPtr α) (i j : Nat) (x : α) :
    (p.write i x).read j = if j = i ∧ i < p.block.length then x else p.read j := by
  unfold read
  rw [block_write, List.getElem?_set]
  by_cases hji : j = i
  · subst hji
    by_cases hlt : j < p.block.length
    · simp [hlt]
    · have hn : p.block[j]? = none := List.getElem?_eq_none (Nat.le_of_not_lt hlt)
      simp [hlt, hn]
  · have hij : ¬ i = j := fun h => hji h.symm
    simp [hji, hij]

theorem read_write_same [Elem α] (p : ArrayPtr α) (i : Nat) (x : α)
    (h : i < p.block.length) : (p.write i x).read i = x := by
  simp [read_write, h]

theorem read_write_other [Elem α] (p : ArrayPtr α) (i j : Nat) (x : α) (h : j ≠ i) :
    (p.write i x).read j = p.read j := by
  simp [read_write, h]

theorem length_ofSize [Elem α] (size : Nat) :
    (ofSize size : ArrayPtr α).block.length = size := by
  unfold ofSize block
  by_cases h : size = 0
  · simp [h]
  · simp [h]

theorem read_eq_getElem [Elem α] (p : ArrayPtr α) (i : Nat) (h : i < p.block.length) :
    p.read i = p.block[i] := by
  simp [read, h]

end ArrayPtr

/-! ## Lemmas on the loops -/

section LoopLemmas

variable {α : Type}

theorem std_copy_length (src : Nat → α) (first last : Nat) (dst : ArrayPtr α) (d : Nat) :
    (std_copy src first last dst d).block.length = dst.block.length := by
  unfold std_copy
  generalize last - first = n
  induction n with
  | zero => simp
  | succ n ih => simp [List.range_succ, List.foldl_append, ArrayPtr.length_write, ih]

theorem std_copy_read [Elem α] (src : Nat → α) (first last : Nat) (dst : ArrayPtr α)
    (d j : Nat) :
    (std_copy src first last dst d).read j =
      if d ≤ j ∧ j < d + (last - first) ∧ j < dst.block.length then src (first + (j - d))
      else dst.read j := by
  have hlen := std_copy_length src first
  unfold std_copy at hlen ⊢
  generalize last - first = n
  induction n with
  | zero =>
    rw [if_neg (by omega)]
    simp
  | succ n ih =>
    have hl : ((List.range n).foldl (fun q k => q.write (d + k) (src (first + k)))
        dst).block.length = dst.block.length := by
      have := hlen (first + n) dst d
      simpa using this
    simp only [List.range_succ, List.foldl_append, List.foldl_cons, List.foldl_nil]
    rw [ArrayPtr.read_write, ih, hl]
    by_cases hj : j = d + n
    · subst hj
      by_cases hb : d + n < dst.block.length
      · simp [hb]
      · simp [hb]
    · have h1 : (d ≤ j ∧ j < d + (n + 1) ∧ j < dst.block.length) ↔
          (d ≤ j ∧ j < d + n ∧ j < dst.block.length) := by
        constructor <;> intro h <;> refine ⟨h.1, by omega, h.2.2⟩
      simp [hj, h1]

theorem std_copy_move_aux [Elem α] (src dst : ArrayPtr α) (first d n : Nat) :
    ((List.range n).foldl
        (fun (st : ArrayPtr α × ArrayPtr α) k =>
          (st.1.write (first + k) (Elem.movedFrom (st.1.read (first + k))),
            st.2.write (d + k) (st.1.read (first + k))))
        (src, dst)).2
      = (List.range n).foldl (fun q k => q.write (d + k) (src.read (first + k))) dst
    ∧ (∀ j, first + n ≤ j →
        ((List.range n).foldl
          (fun (st : ArrayPtr α × ArrayPtr α) k =>
            (st.1.write (first + k) (Elem.movedFrom (st.1.read (first + k))),
              st.2.write (d + k) (st.1.read (first + k))))
          (src, dst)).1.read j = src.read j) := by
  induction n with
  | zero => simp
  | succ n ih =>
    obtain ⟨ih2, ih1⟩ := ih
    simp only [List.range_succ, List.foldl_append, List.foldl_cons, List.foldl_nil]
    refine ⟨?_, ?_⟩
    · rw [ih2, ih1 (first + n) (Nat.le_refl _)]
    · intro j hj
      rw [ArrayPtr.read_write_other _ _ _ _ (by omega)]
      exact ih1 j (by omega)

theorem std_copy_move_snd [Elem α] (src : ArrayPtr α) (first last : Nat) (dst : ArrayPtr α)
    (d : Nat) :
    (std_copy_move src first last dst d).2 = std_copy src.read first last dst d := by
  unfold std_copy_move std_copy
  exact (std_copy_move_aux src dst first d (last - first)).1

theorem std_copy_move_within_aux [Elem α] (p : ArrayPtr α) (first d n : Nat) (hd : d < first)
    (hb : first + n ≤ p.block.length) :
    ((List.range n).foldl
        (fun (q : ArrayPtr α) k =>
          (q.write (d + k) (q.read (first + k))).write (first + k)
            (Elem.movedFrom (q.read (first + k)))) p).block.length = p.block.length
    ∧ (∀ j, j < d →
        ((List.range n).foldl
          (fun (q : ArrayPtr α) k =>
            (q.write (d + k) (q.read (first + k))).write (first + k)
              (Elem.movedFrom (q.read (first + k)))) p).read j = p.read j)
    ∧ (∀ j, d ≤ j → j < d + n →
        ((List.range n).foldl
          (fun (q : ArrayPtr α) k =>
            (q.write (d + k) (q.read (first + k))).write (first + k)
              (Elem.movedFrom (q.read (first + k)))) p).read j = p.read (first + (j - d)))
    ∧ (∀ j, first + n ≤ j →
        ((List.range n).foldl
          (fun (q : ArrayPtr α) k =>
            (q.write (d + k) (q.read (first + k))).write (first + k)
              (Elem.movedFrom (q.read (first + k)))) p).read j = p.read j) := by
  induction n with
  | zero =>
    refine ⟨by simp, by simp, ?_, by simp⟩
    intro j h1 h2
    omega
  | succ n ih =>
    obtain ⟨ihl, iha, ihb, ihc⟩ := ih (by omega)
    simp only [List.range_succ, List.foldl_append, List.foldl_cons, List.foldl_nil]
    refine ⟨?_, ?_, ?_, ?_⟩
    · rw [ArrayPtr.length_write, ArrayPtr.length_write, ihl]
    · intro j hj
      rw [ArrayPtr.read_write_other _ _ _ _ (by omega),
        ArrayPtr.read_write_other _ _ _ _ (by omega)]
      exact iha j hj
    · intro j h1 h2
      rw [ArrayPtr.read_write_other _ _ _ _ (by omega)]
      by_cases hj : j = d + n
      · subst hj
        rw [ArrayPtr.read_write_same _ _ _ (by rw [ihl]; omega), ihc (first + n) (Nat.le_refl _)]
        congr 1
        omega
      · rw [ArrayPtr.read_write_other _ _ _ _ hj]
        exact ihb j h1 (by omega)
    · intro j hj
      rw [ArrayPtr.read_write_other _ _ _ _ (by omega),
        ArrayPtr.read_write_other _ _ _ _ (by omega)]
      exact ihc j (by omega)

theorem insert_shift_stop [Elem α] (n : Int) (fuel : Nat) (i : Int) (items : ArrayPtr α)
    (h : i ≤ n) : SimpleVector.insert_shift n fuel i items = items := by
  cases fuel with
  | zero => rfl
  | succ k => simp [SimpleVector.insert_shift, not_lt.mpr h]

/-- The loop of `Insert` stops by its own test: any bound on the number of iterations that
is at least the distance from the counter down to `n` gives the same result. -/
theorem insert_shift_fuel [Elem α] (n : Int) :
    ∀ (fuel : Nat) (i : Int) (items : ArrayPtr α), (i - n).toNat ≤ fuel →
      SimpleVector.insert_shift n fuel i items
        = SimpleVector.insert_shift n (i - n).toNat i items := by
  intro fuel
  induction fuel with
  | zero =>
    intro i items h
    have e : (i - n).toNat = 0 := by omega
    rw [e]
  | succ k ih =>
    intro i items h
    by_cases hgt : i > n
    · obtain ⟨m, hm⟩ : ∃ m, (i - n).toNat = m + 1 := ⟨(i - n).toNat - 1, by omega⟩
      have hm2 : (i - 1 - n).toNat = m := by omega
      rw [hm]
      simp only [SimpleVector.insert_shift, if_pos hgt]
      rw [ih (i - 1) _ (by omega), hm2]
    · rw [insert_shift_stop n _ i items (by omega), insert_shift_stop n _ i items (by omega)]

theorem insert_shift_aux [Elem α] (pos fuel : Nat) :
    ∀ p : ArrayPtr α, pos + fuel < p.block.length →
      (SimpleVector.insert_shift (pos : Int) fuel ((pos + fuel : Nat) : Int) p).block.length = p.block.length
      ∧ (∀ j, j < pos →
          (SimpleVector.insert_shift (pos : Int) fuel ((pos + fuel : Nat) : Int) p).read j = p.read j)
      ∧ (∀ j, pos < j → j ≤ pos + fuel →
          (SimpleVector.insert_shift (pos : Int) fuel ((pos + fuel : Nat) : Int) p).read j = p.read (j - 1))
      ∧ (∀ j, pos + fuel < j →
          (SimpleVector.insert_shift (pos : Int) fuel ((pos + fuel : Nat) : Int) p).read j = p.read j) := by
  induction fuel with
  | zero =>
    intro p _
    refine ⟨rfl, fun _ _ => rfl, ?_, fun _ _ => rfl⟩
    intro j h1 h2
    omega
  | succ k ih =>
    intro p hb
    have hgt : ((pos + (k + 1) : Nat) : Int) > (pos : Int) := by omega
    have e1 : ((pos + (k + 1) : Nat) : Int) - 1 = ((pos + k : Nat) : Int) := by omega
    have e2 : ((pos + (k + 1) : Nat) : Int).toNat = pos + k + 1 := by omega
    have e3 : ((pos + k : Nat) : Int).toNat = pos + k := by omega
    have hstep : SimpleVector.insert_shift (pos : Int) (k + 1) ((pos + (k + 1) : Nat) : Int) p
        = SimpleVector.insert_shift (pos : Int) k ((pos + k : Nat) : Int)
            ((p.write (pos + k + 1) (p.read (pos + k))).write (pos + k)
              (Elem.movedFrom (p.read (pos + k)))) := by
      simp only [SimpleVector.insert_shift, if_pos hgt, e1, e2, e3]
    rw [hstep]
    have hlen : (((p.write (pos + k + 1) (p.read (pos + k))).write (pos + k)
        (Elem.movedFrom (p.read (pos + k)))).block.length) = p.block.length := by
      rw [ArrayPtr.length_write, ArrayPtr.length_write]
    obtain ⟨ihl, iha, ihb, ihc⟩ := ih _ (by rw [hlen]; omega)
    refine ⟨?_, ?_, ?_, ?_⟩
    · rw [ihl, hlen]
    · intro j hj
      rw [iha j hj, ArrayPtr.read_write_other _ _ _ _ (by omega),
        ArrayPtr.read_write_other _ _ _ _ (by omega)]
    · intro j h1 h2
      by_cases hj : j = pos + k + 1
      · subst hj
        rw [ihc _ (by omega), ArrayPtr.read_write_other _ _ _ _ (by omega),
          ArrayPtr.read_write_same _ _ _ (by omega)]
        rfl
      · rw [ihb j h1 (by omega), ArrayPtr.read_write_other _ _ _ _ (by omega),
          ArrayPtr.read_write_other _ _ _ _ (by omega)]
    · intro j hj
      rw [ihc j (by omega), ArrayPtr.read_write_other _ _ _ _ (by omega),
        ArrayPtr.read_write_other _ _ _ _ (by omega)]

theorem fill_move_length [Elem α] (n : Nat) (p : ArrayPtr α) (value : α) :
    ((List.range n).foldl
      (fun (st : ArrayPtr α × α) i => (st.1.write i st.2, Elem.movedFrom st.2))
      (p, value)).1.block.length = p.block.length := by
  induction n with
  | zero => simp
  | succ n ih => simp [List.range_succ, List.foldl_append, ArrayPtr.length_write, ih]

theorem toInt32_of_lt (x : Nat) (h : x < 2 ^ 31) : toInt32 x = (x : Int) := by
  have h1 : x % 2 ^ 32 = x := Nat.mod_eq_of_lt (by omega)
  unfold toInt32
  rw [h1, if_pos h]

theorem toInt32_le (x : Nat) : toInt32 x ≤ (x : Int) := by
  have h1 : x % 2 ^ 32 ≤ x := Nat.mod_le _ _
  unfold toInt32
  split <;> omega

end LoopLemmas

/-! ## Lemmas on the operations of `SimpleVector` -/

namespace SimpleVector

variable {α : Type}

theorem resize_fill_eq [Elem α] (items : ArrayPtr α) (size new_size : Nat) :
    resize_fill items size new_size = std_copy (fun _ => Elem.dflt) size new_size items size :=
  rfl

theorem Resize_shrink [Elem α] (v : SimpleVector α) (m : Nat) (h : m ≤ v.size_) :
    v.Resize m = { v with size_ := m } := by
  unfold Resize
  rw [if_pos h]

theorem Resize_inplace [Elem α] (v : SimpleVector α) (m : Nat) (h1 : ¬ m ≤ v.size_)
    (h2 : m ≤ v.capacity_) :
    v.Resize m =
      ⟨std_copy (fun _ => Elem.dflt) v.size_ m v.items_ v.size_, m, v.capacity_⟩ := by
  unfold Resize
  rw [if_neg h1, if_pos h2]
  rfl

theorem Resize_grow [Elem α] (v : SimpleVector α) (m : Nat) (h1 : ¬ m ≤ v.size_)
    (h2 : ¬ m ≤ v.capacity_) :
    v.Resize m =
      ⟨std_copy (fun _ => Elem.dflt) v.size_ m
          (std_copy v.items_.read 0 v.size_ (ArrayPtr.ofSize (max m (v.capacity_ * 2))) 0)
          v.size_,
        m, max m (v.capacity_ * 2)⟩ := by
  unfold Resize
  rw [if_neg h1, if_neg h2]
  simp only [ArrayPtr.swap, resize_fill_eq, std_copy_move_snd]

theorem Resize_size [Elem α] (v : SimpleVector α) (m : Nat) : (v.Resize m).size_ = m := by
  by_cases h1 : m ≤ v.size_
  · rw [Resize_shrink v m h1]
  · by_cases h2 : m ≤ v.capacity_
    · rw [Resize_inplace v m h1 h2]
    · rw [Resize_grow v m h1 h2]

theorem Resize_capacity_le [Elem α] (v : SimpleVector α) (m : Nat)
    (hm : m ≤ v.capacity_) : (v.Resize m).capacity_ = v.capacity_ := by
  by_cases h1 : m ≤ v.size_
  · rw [Resize_shrink v m h1]
  · rw [Resize_inplace v m h1 hm]

theorem Resize_capacity_gt [Elem α] (v : SimpleVector α) (m : Nat) (hv : v.Valid)
    (hm : v.capacity_ < m) : (v.Resize m).capacity_ = max m (v.capacity_ * 2) := by
  have hs := hv.1
  rw [Resize_grow v m (by omega) (by omega)]

theorem Resize_length [Elem α] (v : SimpleVector α) (m : Nat) (hv : v.Valid) :
    (v.Resize m).items_.block.length = (v.Resize m).capacity_ := by
  have hl := hv.2
  by_cases h1 : m ≤ v.size_
  · rw [Resize_shrink v m h1]
    exact hl
  · by_cases h2 : m ≤ v.capacity_
    · rw [Resize_inplace v m h1 h2]
      simp only [std_copy_length]
      exact hl
    · rw [Resize_grow v m h1 h2]
      simp only [std_copy_length, ArrayPtr.length_ofSize]

theorem Resize_valid [Elem α] (v : SimpleVector α) (m : Nat) (hv : v.Valid) :
    (v.Resize m).Valid := by
  refine ⟨?_, Resize_length v m hv⟩
  rw [Resize_size]
  by_cases hm : m ≤ v.capacity_
  · rw [Resize_capacity_le v m hm]
    exact hm
  · rw [Resize_capacity_gt v m hv (by omega)]
    exact le_max_left _ _

theorem Resize_read_old [Elem α] (v : SimpleVector α) (m i : Nat) (hv : v.Valid)
    (hi : i < v.size_) : (v.Resize m).items_.read i = v.items_.read i := by
  have hs := hv.1
  have hl := hv.2
  by_cases h1 : m ≤ v.size_
  · rw [Resize_shrink v m h1]
  · by_cases h2 : m ≤ v.capacity_
    · rw [Resize_inplace v m h1 h2]
      simp only [std_copy_read]
      rw [if_neg (by omega)]
    · rw [Resize_grow v m h1 h2]
      simp only [std_copy_read, std_copy_length, ArrayPtr.length_ofSize]
      rw [if_neg (by omega), if_pos ⟨by omega, by omega, by
        have := le_max_left m (v.capacity_ * 2)
        omega⟩]
      simp

theorem Resize_read_new [Elem α] (v : SimpleVector α) (m i : Nat) (hv : v.Valid)
    (h1 : v.size_ ≤ i) (h2 : i < m) : (v.Resize m).items_.read i = Elem.dflt := by
  have hs := hv.1
  have hl := hv.2
  have hm : ¬ m ≤ v.size_ := by omega
  by_cases h3 : m ≤ v.capacity_
  · rw [Resize_inplace v m hm h3]
    simp only [std_copy_read]
    rw [if_pos ⟨h1, by omega, by omega⟩]
  · rw [Resize_grow v m hm h3]
    simp only [std_copy_read, std_copy_length, ArrayPtr.length_ofSize]
    rw [if_pos ⟨h1, by omega, by
      have := le_max_left m (v.capacity_ * 2)
      omega⟩]

theorem toList_length [Elem α] (v : SimpleVector α) : v.toList.length = v.size_ := by
  simp [toList]

theorem toList_getElem [Elem α] (v : SimpleVector α) (i : Nat) (h : i < v.toList.length) :
    v.toList[i] = v.items_.read i := by
  simp [toList]

theorem toList_getElem? [Elem α] (v : SimpleVector α) (i : Nat) (h : i < v.size_) :
    v.toList[i]? = some (v.items_.read i) := by
  simp [toList, h]

theorem toList_ext [Elem α] (v : SimpleVector α) (l : List α) (hlen : l.length = v.size_)
    (h : ∀ i (hi : i < l.length), v.items_.read i = l[i]) : v.toList = l := by
  apply List.ext_getElem
  · rw [toList_length, hlen]
  · intro i h1 h2
    rw [toList_getElem]
    exact h i h2

theorem PushBack_full [Elem α] (v : SimpleVector α) (item : Arg α)
    (h : v.size_ = v.capacity_) :
    v.PushBack item =
      ⟨(v.Resize (v.capacity_ + 1)).items_.write v.size_ item.read_freed,
        (v.Resize (v.capacity_ + 1)).size_, (v.Resize (v.capacity_ + 1)).capacity_⟩ := by
  unfold PushBack
  simp only [if_pos h]

theorem PushBack_room [Elem α] (v : SimpleVector α) (item : Arg α)
    (h : v.size_ ≠ v.capacity_) :
    v.PushBack item = ⟨v.items_.write v.size_ (item.read v.items_), v.size_ + 1, v.capacity_⟩ := by
  unfold PushBack
  simp only [if_neg h]

theorem PushBack_move_fst [Elem α] (v : SimpleVector α) (item : α) :
    (v.PushBack_move (Arg.ext item)).1 = v.PushBack (Arg.ext item) := by
  unfold PushBack_move PushBack
  by_cases h : v.size_ = v.capacity_
  · simp only [if_pos h]
  · simp only [if_neg h]
    rfl

theorem PushBack_arg_size [Elem α] (v : SimpleVector α) (item : Arg α) :
    (v.PushBack item).size_ = v.size_ + 1 := by
  by_cases h : v.size_ = v.capacity_
  · rw [PushBack_full v item h]
    simp only [Resize_size, h]
  · rw [PushBack_room v item h]

theorem PushBack_arg_capacity_full [Elem α] (v : SimpleVector α) (item : Arg α) (hv : v.Valid)
    (h : v.size_ = v.capacity_) :
    (v.PushBack item).capacity_ = max (v.capacity_ + 1) (v.capacity_ * 2) := by
  rw [PushBack_full v item h]
  exact Resize_capacity_gt v _ hv (by omega)

theorem PushBack_arg_capacity_room [Elem α] (v : SimpleVector α) (item : Arg α)
    (h : v.size_ ≠ v.capacity_) : (v.PushBack item).capacity_ = v.capacity_ := by
  rw [PushBack_room v item h]

theorem PushBack_arg_valid [Elem α] (v : SimpleVector α) (item : Arg α) (hv : v.Valid) :
    (v.PushBack item).Valid := by
  have hs := hv.1
  have hl := hv.2
  by_cases h : v.size_ = v.capacity_
  · have hr := Resize_valid v (v.capacity_ + 1) hv
    rw [PushBack_full v item h]
    exact ⟨hr.1, by rw [ArrayPtr.length_write]; exact hr.2⟩
  · rw [PushBack_room v item h]
    exact ⟨by show v.size_ + 1 ≤ v.capacity_; omega, by rw [ArrayPtr.length_write]; exact hl⟩

theorem PushBack_arg_read_old [Elem α] (v : SimpleVector α) (item : Arg α) (hv : v.Valid)
    (i : Nat) (hi : i < v.size_) : (v.PushBack item).items_.read i = v.items_.read i := by
  by_cases h : v.size_ = v.capacity_
  · rw [PushBack_full v item h]
    show ((v.Resize (v.capacity_ + 1)).items_.write v.size_ _).read i = _
    rw [ArrayPtr.read_write_other _ _ _ _ (by omega)]
    exact Resize_read_old v _ i hv hi
  · rw [PushBack_room v item h]
    exact ArrayPtr.read_write_other _ _ _ _ (by omega)

/-- The element that `PushBack` stores at the old size: the argument as read after the old
block was freed in the branch with growth, the argument as read from the block otherwise. -/
theorem PushBack_arg_read_last [Elem α] (v : SimpleVector α) (item : Arg α) (hv : v.Valid) :
    (v.PushBack item).items_.read v.size_
      = if v.size_ = v.capacity_ then item.read_freed else item.read v.items_ := by
  have hs := hv.1
  have hl := hv.2
  by_cases h : v.size_ = v.capacity_
  · have hr := Resize_valid v (v.capacity_ + 1) hv
    have hc := Resize_capacity_gt v (v.capacity_ + 1) hv (by omega)
    rw [PushBack_full v item h, if_pos h]
    apply ArrayPtr.read_write_same
    rw [hr.2, hc]
    have := le_max_left (v.capacity_ + 1) (v.capacity_ * 2)
    omega
  · rw [PushBack_room v item h, if_neg h]
    apply ArrayPtr.read_write_same
    omega

theorem PushBack_size [Elem α] (v : SimpleVector α) (item : α) :
    (v.PushBack (Arg.ext item)).size_ = v.size_ + 1 :=
  PushBack_arg_size v _

theorem PushBack_capacity_full [Elem α] (v : SimpleVector α) (item : α) (hv : v.Valid)
    (h : v.size_ = v.capacity_) :
    (v.PushBack (Arg.ext item)).capacity_ = max (v.capacity_ + 1) (v.capacity_ * 2) :=
  PushBack_arg_capacity_full v _ hv h

theorem PushBack_capacity_room [Elem α] (v : SimpleVector α) (item : α)
    (h : v.size_ ≠ v.capacity_) : (v.PushBack (Arg.ext item)).capacity_ = v.capacity_ :=
  PushBack_arg_capacity_room v _ h

theorem PushBack_valid [Elem α] (v : SimpleVector α) (item : α) (hv : v.Valid) :
    (v.PushBack (Arg.ext item)).Valid :=
  PushBack_arg_valid v _ hv

theorem PushBack_read_last [Elem α] (v : SimpleVector α) (item : α) (hv : v.Valid) :
    (v.PushBack (Arg.ext item)).items_.read v.size_ = item := by
  rw [PushBack_arg_read_last v _ hv]
  split <;> rfl

theorem PushBack_read_old [Elem α] (v : SimpleVector α) (item : α) (hv : v.Valid) (i : Nat)
    (hi : i < v.size_) : (v.PushBack (Arg.ext item)).items_.read i = v.items_.read i :=
  PushBack_arg_read_old v _ hv i hi

theorem PushBack_toList [Elem α] (v : SimpleVector α) (item : α) (hv : v.Valid) :
    (v.PushBack (Arg.ext item)).toList = v.toList ++ [item] := by
  apply toList_ext
  · rw [PushBack_size v item]
    simp [toList_length]
  · intro i hi
    have hi2 : i < v.size_ + 1 := by simpa [toList_length] using hi
    by_cases hlt : i < v.size_
    · rw [PushBack_read_old v item hv i hlt,
        List.getElem_append_left (by rw [toList_length]; exact hlt), toList_getElem]
    · have hie : i = v.size_ := by omega
      subst hie
      rw [PushBack_read_last v item hv]
      simp [toList_length]

theorem toList_getElem?_full [Elem α] (v : SimpleVector α) (j : Nat) :
    v.toList[j]? = if j < v.size_ then some (v.items_.read j) else none := by
  by_cases h : j < v.size_
  · rw [if_pos h, toList_getElem? v j h]
  · rw [if_neg h]
    exact List.getElem?_eq_none (by rw [toList_length]; omega)

theorem Erase_eq [Elem α] (v : SimpleVector α) (pos : Nat) (h : pos < v.size_) :
    v.Erase pos =
      some (⟨std_copy_move_within v.items_ (pos + 1) v.size_ pos, v.size_ - 1, v.capacity_⟩,
        pos) := by
  unfold Erase
  rw [if_neg (by omega), if_neg (by omega)]

theorem Erase_none [Elem α] (v : SimpleVector α) (pos : Nat) (h : ¬ pos < v.size_) :
    v.Erase pos = none := by
  unfold Erase
  rw [if_pos h]

theorem erase_items [Elem α] (v : SimpleVector α) (pos : Nat) (hv : v.Valid)
    (h : pos < v.size_) :
    (std_copy_move_within v.items_ (pos + 1) v.size_ pos).block.length = v.capacity_
    ∧ (∀ j, j < pos →
        (std_copy_move_within v.items_ (pos + 1) v.size_ pos).read j = v.items_.read j)
    ∧ (∀ j, pos ≤ j → j < v.size_ - 1 →
        (std_copy_move_within v.items_ (pos + 1) v.size_ pos).read j = v.items_.read (j + 1))
    ∧ (∀ j, v.size_ ≤ j →
        (std_copy_move_within v.items_ (pos + 1) v.size_ pos).read j = v.items_.read j) := by
  have hs := hv.1
  have hl := hv.2
  obtain ⟨a, b, c, d⟩ := std_copy_move_within_aux v.items_ (pos + 1) pos (v.size_ - (pos + 1))
    (by omega) (by omega)
  unfold std_copy_move_within
  refine ⟨by rw [a, hl], b, ?_, ?_⟩
  · intro j h1 h2
    rw [c j h1 (by omega)]
    congr 1
    omega
  · intro j h1
    exact d j (by omega)

theorem Erase_toList [Elem α] (v w : SimpleVector α) (pos c : Nat) (hv : v.Valid)
    (h : v.Erase pos = some (w, c)) : w.toList = v.toList.eraseIdx pos := by
  by_cases hp : pos < v.size_
  · rw [Erase_eq v pos hp] at h
    simp only [Option.some.injEq, Prod.mk.injEq] at h
    obtain ⟨hw, -⟩ := h
    obtain ⟨-, b, c, -⟩ := erase_items v pos hv hp
    subst hw
    apply List.ext_getElem?
    intro j
    rw [toList_getElem?_full, List.getElem?_eraseIdx, toList_getElem?_full, toList_getElem?_full]
    show (if j < v.size_ - 1 then _ else _) = _
    by_cases h1 : j < pos
    · rw [if_pos (by omega), if_pos h1, if_pos (by omega)]
      exact congrArg some (b j h1)
    · rw [if_neg h1]
      by_cases h2 : j < v.size_ - 1
      · rw [if_pos h2, if_pos (by omega)]
        exact congrArg some (c j (by omega) h2)
      · rw [if_neg h2, if_neg (by omega)]
  · rw [Erase_none v pos hp] at h
    exact absurd h (by simp)

theorem Erase_valid [Elem α] (v : SimpleVector α) (pos : Nat) (hv : v.Valid)
    (h : pos < v.size_) :
    (⟨std_copy_move_within v.items_ (pos + 1) v.size_ pos, v.size_ - 1, v.capacity_⟩ :
      SimpleVector α).Valid := by
  have hs := hv.1
  exact ⟨by show v.size_ - 1 ≤ v.capacity_; omega, (erase_items v pos hv h).1⟩

theorem ctor_size_length [Elem α] (n : Nat) :
    (ctor_size n : SimpleVector α).items_.block.length = n := by
  unfold ctor_size ctor_fill_move
  simp only
  rw [fill_move_length, ArrayPtr.length_ofSize]

theorem ctor_size_capacity [Elem α] (n : Nat) :
    (ctor_size n : SimpleVector α).capacity_ = n := rfl

theorem ctor_size_size [Elem α] (n : Nat) : (ctor_size n : SimpleVector α).size_ = n := rfl

theorem Insert_none [Elem α] (v : SimpleVector α) (pos : Nat) (value : Arg α)
    (h : ¬ pos ≤ v.size_) : v.Insert pos value = none := by
  unfold Insert
  rw [if_pos h]

theorem Insert_eq_cap0 [Elem α] (v : SimpleVector α) (pos : Nat) (value : Arg α)
    (hpos : pos ≤ v.size_) (h : v.capacity_ = 0) :
    v.Insert pos value = some (v.PushBack value, 0) := by
  unfold Insert
  rw [if_neg (not_not.mpr hpos)]
  simp only [if_pos h]

theorem Insert_eq_room [Elem α] (v : SimpleVector α) (pos : Nat) (value : Arg α)
    (hpos : pos ≤ v.size_) (h0 : v.capacity_ ≠ 0) (h : v.size_ < v.capacity_) :
    v.Insert pos value =
      some (⟨(insert_shift (pos : Int) (toInt32 v.size_ - (pos : Int)).toNat (toInt32 v.size_)
              v.items_).write pos
            (value.read (insert_shift (pos : Int) (toInt32 v.size_ - (pos : Int)).toNat
              (toInt32 v.size_) v.items_)),
          v.size_ + 1, v.capacity_⟩, pos) := by
  unfold Insert
  rw [if_neg (not_not.mpr hpos)]
  simp only [if_neg h0, if_pos h, Int.toNat_ofNat]

theorem Insert_eq_grow [Elem α] (v : SimpleVector α) (pos : Nat) (value : Arg α)
    (hpos : pos ≤ v.size_) (h0 : v.capacity_ ≠ 0) (h : ¬ v.size_ < v.capacity_) :
    v.Insert pos value =
      some (⟨(std_copy v.items_.read pos v.size_
              (std_copy v.items_.read 0 pos (ctor_size (v.capacity_ * 2)).items_ 0)
              (pos + 1)).write pos (value.read v.items_),
          v.size_ + 1, v.capacity_ * 2⟩, pos) := by
  unfold Insert
  rw [if_neg (not_not.mpr hpos)]
  simp only [if_neg h0, if_neg h, swap, ArrayPtr.swap, ctor_size_capacity]

/-- The vector that `Insert` leaves when its in-place loop runs as written for a counter
that equals the size, or does not have to run, or when another branch is taken, for any
argument: the element stored at `pos` is the argument as the branch taken reads it. -/
theorem Insert_arg_spec [Elem α] (v : SimpleVector α) (pos : Nat) (value : Arg α)
    (hv : v.Valid)
    (hpos : pos ≤ v.size_)
    (hsmall : v.size_ < 2 ^ 31 ∨ pos = v.size_ ∨ v.size_ = v.capacity_) :
    ∃ w : SimpleVector α, v.Insert pos value = some (w, pos)
      ∧ w.Valid
      ∧ w.size_ = v.size_ + 1
      ∧ w.capacity_ = (if v.size_ = v.capacity_ then max (v.size_ + 1) (v.capacity_ * 2)
          else v.capacity_)
      ∧ (∀ j, j < pos → w.items_.read j = v.items_.read j)
      ∧ w.items_.read pos =
          (if v.capacity_ = 0 then value.read_freed
            else if v.size_ < v.capacity_ then
              value.read (insert_shift (pos : Int) (toInt32 v.size_ - (pos : Int)).toNat
                (toInt32 v.size_) v.items_)
            else value.read v.items_)
      ∧ (∀ j, pos < j → j ≤ v.size_ → w.items_.read j = v.items_.read (j - 1)) := by
  have hs := hv.1
  have hl := hv.2
  by_cases h0 : v.capacity_ = 0
  · have hsz : v.size_ = 0 := by omega
    have hp0 : pos = 0 := by omega
    have hfull : v.size_ = v.capacity_ := by omega
    refine ⟨v.PushBack value, ?_, PushBack_arg_valid v value hv, PushBack_arg_size v value, ?_,
      ?_, ?_, ?_⟩
    · rw [Insert_eq_cap0 v pos value hpos h0, hp0]
    · rw [if_pos hfull, PushBack_arg_capacity_full v value hv hfull, hfull]
    · intro j hj
      omega
    · have := PushBack_arg_read_last v value hv
      rw [if_pos hfull, hsz] at this
      rw [if_pos h0, hp0]
      exact this
    · intro j h1 h2
      omega
  · by_cases h : v.size_ < v.capacity_
    · have hshift : ∃ q : ArrayPtr α,
          insert_shift (pos : Int) (toInt32 v.size_ - (pos : Int)).toNat (toInt32 v.size_)
            v.items_ = q
          ∧ q.block.length = v.items_.block.length
          ∧ (∀ j, j < pos → q.read j = v.items_.read j)
          ∧ (∀ j, pos < j → j ≤ v.size_ → q.read j = v.items_.read (j - 1)) := by
        by_cases hlt : v.size_ < 2 ^ 31
        · have e1 : toInt32 v.size_ = ((pos + (v.size_ - pos) : Nat) : Int) := by
            rw [toInt32_of_lt v.size_ hlt]
            congr 1
            omega
          have e2 : (((pos + (v.size_ - pos) : Nat) : Int) - (pos : Int)).toNat
              = v.size_ - pos := by omega
          obtain ⟨a, b, c, -⟩ := insert_shift_aux pos (v.size_ - pos) v.items_ (by omega)
          refine ⟨_, rfl, ?_, ?_, ?_⟩
          · rw [e1, e2]
            exact a
          · rw [e1, e2]
            exact b
          · rw [e1, e2]
            intro j h1 h2
            exact c j h1 (by omega)
        · have hp : pos = v.size_ := by omega
          have hle : toInt32 v.size_ ≤ (pos : Int) := by
            rw [hp]
            exact toInt32_le _
          refine ⟨_, rfl, ?_, ?_, ?_⟩
          · rw [insert_shift_stop _ _ _ _ hle]
          · rw [insert_shift_stop _ _ _ _ hle]
            intro j _
            rfl
          · intro j h1 h2
            omega
      obtain ⟨q, hq, ql, qa, qb⟩ := hshift
      refine ⟨⟨q.write pos (value.read q), v.size_ + 1, v.capacity_⟩, ?_, ?_, rfl, ?_, ?_, ?_,
        ?_⟩
      · rw [Insert_eq_room v pos value hpos h0 h, hq]
      · exact ⟨by show v.size_ + 1 ≤ v.capacity_; omega, by
          rw [ArrayPtr.length_write, ql, hl]⟩
      · rw [if_neg (by omega)]
      · intro j hj
        show (q.write pos _).read j = _
        rw [ArrayPtr.read_write_other _ _ _ _ (by omega)]
        exact qa j hj
      · rw [if_neg h0, if_pos h, hq]
        exact ArrayPtr.read_write_same _ _ _ (by omega)
      · intro j h1 h2
        show (q.write pos _).read j = _
        rw [ArrayPtr.read_write_other _ _ _ _ (by omega)]
        exact qb j h1 h2
    · have hfull : v.size_ = v.capacity_ := by omega
      refine ⟨_, Insert_eq_grow v pos value hpos h0 h, ?_, rfl, ?_, ?_, ?_, ?_⟩
      · refine ⟨by show v.size_ + 1 ≤ v.capacity_ * 2; omega, ?_⟩
        show ((std_copy _ _ _ _ _).write pos _).block.length = v.capacity_ * 2
        rw [ArrayPtr.length_write, std_copy_length, std_copy_length, ctor_size_length]
      · rw [if_pos hfull]
        show v.capacity_ * 2 = _
        rw [max_eq_right (by omega)]
      · intro j hj
        show ((std_copy _ _ _ _ _).write pos _).read j = _
        rw [ArrayPtr.read_write_other _ _ _ _ (by omega), std_copy_read,
          if_neg (by omega), std_copy_read, ctor_size_length,
          if_pos ⟨by omega, by omega, by omega⟩]
        congr 1
        omega
      · rw [if_neg h0, if_neg h]
        show ((std_copy _ _ _ _ _).write pos _).read pos = _
        apply ArrayPtr.read_write_same
        rw [std_copy_length, std_copy_length, ctor_size_length]
        omega
      · intro j h1 h2
        show ((std_copy _ _ _ _ _).write pos _).read j = _
        rw [ArrayPtr.read_write_other _ _ _ _ (by omega), std_copy_read, std_copy_length,
          ctor_size_length, if_pos ⟨by omega, by omega, by omega⟩]
        congr 1
        omega

/-- The vector that `Insert` leaves for an argument that refers to an object outside the
vector, under the same conditions on the counter of the in-place loop. -/
theorem Insert_spec [Elem α] (v : SimpleVector α) (pos : Nat) (value : α) (hv : v.Valid)
    (hpos : pos ≤ v.size_)
    (hsmall : v.size_ < 2 ^ 31 ∨ pos = v.size_ ∨ v.size_ = v.capacity_) :
    ∃ w : SimpleVector α, v.Insert pos (Arg.ext value) = some (w, pos)
      ∧ w.Valid
      ∧ w.size_ = v.size_ + 1
      ∧ w.capacity_ = (if v.size_ = v.capacity_ then max (v.size_ + 1) (v.capacity_ * 2)
          else v.capacity_)
      ∧ (∀ j, j < pos → w.items_.read j = v.items_.read j)
      ∧ w.items_.read pos = value
      ∧ (∀ j, pos < j → j ≤ v.size_ → w.items_.read j = v.items_.read (j - 1)) := by
  obtain ⟨w, hw, hwv, hsz, hcap, ha, hb, hc⟩ :=
    Insert_arg_spec v pos (Arg.ext value) hv hpos hsmall
  refine ⟨w, hw, hwv, hsz, hcap, ha, ?_, hc⟩
  rw [hb]
  split
  · rfl
  · split <;> rfl

theorem insert_toList [Elem α] (v w : SimpleVector α) (pos : Nat) (value : α)
    (hpos : pos ≤ v.size_) (hsz : w.size_ = v.size_ + 1)
    (ha : ∀ j, j < pos → w.items_.read j = v.items_.read j)
    (hb : w.items_.read pos = value)
    (hc : ∀ j, pos < j → j ≤ v.size_ → w.items_.read j = v.items_.read (j - 1)) :
    w.toList = v.toList.take pos ++ [value] ++ v.toList.drop pos := by
  apply List.ext_getElem?
  intro j
  have hlt : (List.take pos v.toList).length = pos := by
    rw [List.length_take, toList_length]
    omega
  rw [List.append_assoc, toList_getElem?_full, hsz]
  by_cases h1 : j < pos
  · rw [if_pos (by omega), List.getElem?_append_left (by omega), List.getElem?_take_of_lt h1,
      toList_getElem?_full, if_pos (by omega), ha j h1]
  · rw [List.getElem?_append_right (by omega), hlt]
    by_cases h2 : j = pos
    · subst h2
      rw [if_pos (by omega), hb]
      simp
    · obtain ⟨k, hk⟩ : ∃ k, j - pos = k + 1 := ⟨j - pos - 1, by omega⟩
      rw [hk]
      simp only [List.singleton_append, List.getElem?_cons_succ, List.getElem?_drop]
      rw [toList_getElem?_full]
      by_cases h3 : j < v.size_ + 1
      · rw [if_pos h3, if_pos (by omega), hc j (by omega) (by omega)]
        congr 2
        omega
      · rw [if_neg h3, if_neg (by omega)]

end SimpleVector

/-! ## The contracts of the operations -/

namespace SimpleVector

variable {α : Type}

/-- The contract of `PushBack` for an argument that refers to an object outside the
vector: for every vector that satisfies its invariant and every such object holding `x`,
after `PushBack(x)` the size is the old size plus one, the element at the last live index
is `x`, the elements below the old size are unchanged, so the live elements are the old
ones followed by `x`; the overload that takes `Type &&` leaves the same vector; in the
branch `size_ == capacity_` the vector is the one left by `Resize(capacity_ + 1)` with `x`
written at the old size, in the other branch the capacity is unchanged. -/
theorem pushback_contract [Elem α] (v : SimpleVector α) (x : α) (hv : v.Valid) :
    (v.PushBack (Arg.ext x)).GetSize = v.GetSize + 1
    ∧ (v.PushBack (Arg.ext x)).items_.read ((v.PushBack (Arg.ext x)).GetSize - 1) = x
    ∧ (∀ i, i < v.GetSize → (v.PushBack (Arg.ext x)).items_.read i = v.items_.read i)
    ∧ (v.PushBack (Arg.ext x)).toList = v.toList ++ [x]
    ∧ (v.PushBack_move (Arg.ext x)).1 = v.PushBack (Arg.ext x)
    ∧ (v.size_ = v.capacity_ →
        v.PushBack (Arg.ext x) =
          { v.Resize (v.capacity_ + 1) with
            items_ := (v.Resize (v.capacity_ + 1)).items_.write v.size_ x })
    ∧ (v.size_ < v.capacity_ → (v.PushBack (Arg.ext x)).GetCapacity = v.GetCapacity) := by
  refine ⟨PushBack_size v x, ?_, fun i hi => PushBack_read_old v x hv i hi,
    PushBack_toList v x hv, PushBack_move_fst v x, fun h => PushBack_full v (Arg.ext x) h, ?_⟩
  · show (v.PushBack (Arg.ext x)).items_.read ((v.PushBack (Arg.ext x)).size_ - 1) = x
    rw [PushBack_size v x, Nat.add_sub_cancel]
    exact PushBack_read_last v x hv
  · intro h
    exact PushBack_capacity_room v x (by omega)

theorem pushback_contract_witness :
    (sampleRoom.PushBack (Arg.ext 7)).toList = sampleRoom.toList ++ [7]
    ∧ (sampleFull.PushBack (Arg.ext 7)).toList = sampleFull.toList ++ [7] :=
  ⟨(pushback_contract sampleRoom 7 (by decide)).2.2.2.1,
    (pushback_contract sampleFull 7 (by decide)).2.2.2.1⟩

/-- The contract of `PushBack` for any argument: the size grows by one, the elements below
the old size are unchanged, and the element stored at the old size is the argument as the
branch taken reads it, which for an element of the vector itself is its value only in the
branch without growth. -/
theorem PushBack_arg_contract [Elem α] (v : SimpleVector α) (item : Arg α) (hv : v.Valid) :
    (v.PushBack item).size_ = v.size_ + 1
    ∧ (∀ i, i < v.size_ → (v.PushBack item).items_.read i = v.items_.read i)
    ∧ (v.size_ < v.capacity_ → (v.PushBack item).items_.read v.size_ = item.read v.items_)
    ∧ (v.size_ = v.capacity_ → (v.PushBack item).items_.read v.size_ = item.read_freed) := by
  refine ⟨PushBack_arg_size v item, fun i hi => PushBack_arg_read_old v item hv i hi, ?_, ?_⟩
  · intro h
    rw [PushBack_arg_read_last v item hv, if_neg (by omega)]
  · intro h
    rw [PushBack_arg_read_last v item hv, if_pos h]

/-- C1: evaluation of `PushBack` at the failing input.  On the vector with the two live
elements `1, 2` and capacity `2`, the call `v.PushBack(v[0])` takes the branch
`size_ == capacity_`: `Resize(3)` moves the elements to a new block and frees the old one,
and `items_[2] = item` then reads `item` through a reference into the freed block.  The
element stored at the last live index is what that read yields (`900` for this element
type) and not the value `1` that was passed, so the live elements are not the old ones
followed by that value.  The same call on a vector with a spare slot stores `1`. -/
theorem pushback_reads_freed_argument :
    sampleFull.Valid ∧ sampleFull.size_ = sampleFull.capacity_
    ∧ sampleFull.items_.read 0 = 1
    ∧ sampleFull.PushBack (Arg.slot 0) = ⟨⟨some [1, 2, 900, 103]⟩, 3, 4⟩
    ∧ (sampleFull.PushBack (Arg.slot 0)).items_.read
        ((sampleFull.PushBack (Arg.slot 0)).GetSize - 1) = Elem.freed 0
    ∧ (sampleFull.PushBack (Arg.slot 0)).items_.read
        ((sampleFull.PushBack (Arg.slot 0)).GetSize - 1) ≠ sampleFull.items_.read 0
    ∧ (sampleFull.PushBack (Arg.slot 0)).toList
        ≠ sampleFull.toList ++ [sampleFull.items_.read 0]
    ∧ (sampleRoom.PushBack (Arg.slot 0)).toList
        = sampleRoom.toList ++ [sampleRoom.items_.read 0] := by
  decide

theorem sampleHuge_valid : sampleHuge.Valid := by
  refine ⟨?_, ?_⟩
  · show 2147483648 ≤ 2147483649
    omega
  · show (5 :: List.replicate 2147483648 0).length = 2147483649
    rw [List.length_cons, List.length_replicate]

theorem sampleHugeAfter_valid : sampleHugeAfter.Valid := by
  refine ⟨Nat.le_refl _, ?_⟩
  show (9 :: List.replicate 2147483648 0).length = 2147483649
  rw [List.length_cons, List.length_replicate]

theorem toInt32_sampleHuge : toInt32 2147483648 = -2147483648 := by
  unfold toInt32
  norm_num

theorem sampleHuge_insert : sampleHuge.Insert 0 (Arg.ext 9) = some (sampleHugeAfter, 0) := by
  have hroom := Insert_eq_room sampleHuge 0 (Arg.ext 9) (Nat.zero_le _)
    (by show 2147483649 ≠ 0; omega) (by show 2147483648 < 2147483649; omega)
  rw [hroom]
  have hsz : sampleHuge.size_ = 2147483648 := rfl
  rw [hsz, toInt32_sampleHuge, insert_shift_stop _ _ _ _ (by norm_num)]
  rfl

theorem read_cons_zero [Elem α] (a : α) (l : List α) :
    ArrayPtr.read ⟨some (a :: l)⟩ 0 = a := by
  simp [ArrayPtr.read, ArrayPtr.block]

theorem read_cons_replicate [Elem α] (a b : α) (n k : Nat) (h : k < n) :
    ArrayPtr.read ⟨some (a :: List.replicate n b)⟩ (k + 1) = b := by
  simp [ArrayPtr.read, ArrayPtr.block, List.getElem?_replicate, h]

theorem getElem?_one_insert_front (l : List α) (x : α) :
    (l.take 0 ++ [x] ++ l.drop 0)[1]? = l[0]? := by
  simp

theorem sampleHuge_first : sampleHuge.toList[0]? = some 5 := by
  rw [toList_getElem? sampleHuge 0 (by show 0 < 2147483648; omega)]
  exact congrArg some (read_cons_zero 5 _)

theorem sampleHugeAfter_second : sampleHugeAfter.items_.read 1 = 0 :=
  read_cons_replicate 9 0 2147483648 0 (by omega)

/-- C2: evaluation of `Insert` at the failing input.  On the vector with `2^31` live
elements `5, 0, 0, ...` and one spare slot, `Insert(begin(), 9)` takes the in-place branch,
its counter `int i = size_` is `-2^31`, no element is shifted, and the live elements
afterwards are `9, 0, 0, ...`: the element `5` is lost, so they are not
`[9]` followed by the old live elements. -/
theorem insert_loses_element_at_int_limit :
    sampleHuge.Valid ∧ 0 ≤ sampleHuge.size_ ∧ sampleHuge.size_ < sampleHuge.capacity_
    ∧ ∃ w : SimpleVector Nat, sampleHuge.Insert 0 (Arg.ext 9) = some (w, 0)
      ∧ sampleHuge.toList[0]? = some 5
      ∧ w.toList[1]? = some 0
      ∧ w.toList ≠ sampleHuge.toList.take 0 ++ [9] ++ sampleHuge.toList.drop 0 := by
  have hnew : sampleHugeAfter.toList[1]? = some 0 := by
    rw [toList_getElem? _ 1 (by show 1 < 2147483649; omega)]
    exact congrArg some sampleHugeAfter_second
  refine ⟨sampleHuge_valid, Nat.zero_le _, by show 2147483648 < 2147483649; omega, _,
    sampleHuge_insert, sampleHuge_first, hnew, ?_⟩
  intro heq
  have h1 := hnew
  rw [heq, getElem?_one_insert_front, sampleHuge_first] at h1
  exact absurd h1 (by decide)

/-- The contract of `Insert` wherever the counter of the in-place loop is not affected by
the conversion to `int`: for a size below `2^31`, for an insertion at `end()`, and in the
growth branch. -/
theorem Insert_toList [Elem α] (v : SimpleVector α) (pos : Nat) (value : α) (hv : v.Valid)
    (hpos : pos ≤ v.size_)
    (hsmall : v.size_ < 2 ^ 31 ∨ pos = v.size_ ∨ v.size_ = v.capacity_) :
    ∃ w : SimpleVector α, v.Insert pos (Arg.ext value) = some (w, pos)
      ∧ w.size_ = v.size_ + 1
      ∧ w.toList = v.toList.take pos ++ [value] ++ v.toList.drop pos
      ∧ w.items_.read pos = value := by
  obtain ⟨w, hw, -, hsz, -, ha, hb, hc⟩ := Insert_spec v pos value hv hpos hsmall
  exact ⟨w, hw, hsz, insert_toList v w pos value hpos hsz ha hb hc, hb⟩

/-- Below the limit of `int`, `Insert` followed by `Erase` at the returned position restores
the size and the live elements. -/
theorem Insert_Erase_roundtrip [Elem α] (v : SimpleVector α) (pos : Nat) (value : α)
    (hv : v.Valid) (hpos : pos ≤ v.size_)
    (hsmall : v.size_ < 2 ^ 31 ∨ pos = v.size_ ∨ v.size_ = v.capacity_) :
    ∃ w u : SimpleVector α, v.Insert pos (Arg.ext value) = some (w, pos)
      ∧ w.Erase pos = some (u, pos)
      ∧ u.size_ = v.size_
      ∧ u.toList = v.toList := by
  obtain ⟨w, hw, hwv, hsz, -, ha, -, hc⟩ := Insert_spec v pos value hv hpos hsmall
  have hp : pos < w.size_ := by omega
  obtain ⟨-, ea, eb, -⟩ := erase_items w pos hwv hp
  refine ⟨w, _, hw, Erase_eq w pos hp, by show w.size_ - 1 = v.size_; omega, ?_⟩
  apply toList_ext
  · rw [toList_length]
    show v.size_ = w.size_ - 1
    omega
  · intro i hi
    rw [toList_length] at hi
    rw [toList_getElem]
    by_cases h1 : i < pos
    · show (std_copy_move_within _ _ _ _).read i = _
      rw [ea i h1, ha i h1]
    · show (std_copy_move_within _ _ _ _).read i = _
      rw [eb i (by omega) (by omega), hc (i + 1) (by omega) (by omega)]
      rfl

theorem Erase_spec [Elem α] (v : SimpleVector α) (n : Nat) (hv : v.Valid)
    (hn : n < v.size_) :
    ∃ w : SimpleVector α, v.Erase n = some (w, n)
      ∧ w.toList = v.toList.eraseIdx n
      ∧ (∀ j, j < n → w.items_.read j = v.items_.read j)
      ∧ (∀ j, n ≤ j → j < w.size_ → w.items_.read j = v.items_.read (j + 1))
      ∧ w.size_ = v.size_ - 1
      ∧ w.capacity_ = v.capacity_
      ∧ w.Valid := by
  have he := Erase_eq v n hn
  obtain ⟨-, ea, eb, -⟩ := erase_items v n hv hn
  exact ⟨_, he, Erase_toList v _ n n hv he, ea, eb, rfl, rfl, Erase_valid v n hv hn⟩

/-- C3: for every vector that satisfies its invariant and every offset `n` below the size,
`Erase(begin() + n)` succeeds, returns the iterator at offset `n`, leaves the live elements
of before with the one at index `n` removed (those before `n` unchanged, those after `n`
one place to the left), a size lower by one and the same capacity. -/
theorem erase_contract [Elem α] (v : SimpleVector α) (n : Nat) (hv : v.Valid)
    (hn : n < v.GetSize) :
    ∃ w : SimpleVector α, v.Erase n = some (w, n)
      ∧ w.toList = v.toList.eraseIdx n
      ∧ w.toList = v.toList.take n ++ v.toList.drop (n + 1)
      ∧ (∀ j, j < n → w.items_.read j = v.items_.read j)
      ∧ (∀ j, n ≤ j → j < w.GetSize → w.items_.read j = v.items_.read (j + 1))
      ∧ w.GetSize = v.GetSize - 1
      ∧ w.GetCapacity = v.GetCapacity := by
  obtain ⟨w, he, ht, ea, eb, hs, hc, -⟩ := Erase_spec v n hv hn
  refine ⟨w, he, ht, ?_, ea, eb, hs, hc⟩
  rw [ht, List.eraseIdx_eq_take_drop_succ]

theorem erase_contract_witness :
    ∃ w : SimpleVector Nat, sampleRoom.Erase 1 = some (w, 1)
      ∧ w.toList = sampleRoom.toList.eraseIdx 1
      ∧ w.toList = sampleRoom.toList.take 1 ++ sampleRoom.toList.drop (1 + 1)
      ∧ (∀ j, j < 1 → w.items_.read j = sampleRoom.items_.read j)
      ∧ (∀ j, 1 ≤ j → j < w.GetSize → w.items_.read j = sampleRoom.items_.read (j + 1))
      ∧ w.GetSize = sampleRoom.GetSize - 1
      ∧ w.GetCapacity = sampleRoom.GetCapacity :=
  erase_contract sampleRoom 1 (by decide) (by decide)

/-- C4: evaluation of `Insert` followed by `Erase` at the failing input.  On the vector
with `2^31` live elements `5, 0, 0, ...` and one spare slot, `Insert(begin(), 9)` and then
`Erase` at the returned iterator restore the size but leave the live elements
`0, 0, 0, ...`: the first element `5` is not restored. -/
theorem insert_erase_loses_element_at_int_limit :
    sampleHuge.Valid ∧ 0 ≤ sampleHuge.size_
    ∧ ∃ (w u : SimpleVector Nat) (c d : Nat), sampleHuge.Insert 0 (Arg.ext 9) = some (w, c)
      ∧ w.Erase c = some (u, d)
      ∧ u.size_ = sampleHuge.size_
      ∧ sampleHuge.toList[0]? = some 5
      ∧ u.toList[0]? = some 0
      ∧ u.toList ≠ sampleHuge.toList := by
  have hp : 0 < sampleHugeAfter.size_ := by
    show 0 < 2147483649
    omega
  obtain ⟨u, he, -, -, eb, hs, -, -⟩ := Erase_spec sampleHugeAfter 0 sampleHugeAfter_valid hp
  have hsz : u.size_ = 2147483648 := by
    rw [hs]
    show 2147483649 - 1 = 2147483648
    omega
  have hnew : u.toList[0]? = some 0 := by
    rw [toList_getElem? u 0 (by omega), eb 0 (Nat.le_refl _) (by omega)]
    exact congrArg some sampleHugeAfter_second
  refine ⟨sampleHuge_valid, Nat.zero_le _, sampleHugeAfter, u, 0, 0, sampleHuge_insert, he,
    hsz, sampleHuge_first, hnew, ?_⟩
  intro heq
  rw [heq, sampleHuge_first] at hnew
  exact absurd hnew (by decide)

/-- C5: `At(i)` signals `std::out_of_range` exactly when `i >= GetSize()`, hence for every
`i` on an empty vector; for `i < GetSize()` it yields the live element at index `i`; and the
vector is the same after the call in both cases. -/
theorem at_contract [Elem α] (v : SimpleVector α) (i : Nat) :
    ((v.At i).1 = Except.error (Exception.out_of_range "") ↔ i ≥ v.GetSize)
    ∧ (v.IsEmpty = true → (v.At i).1 = Except.error (Exception.out_of_range ""))
    ∧ (i < v.GetSize → (v.At i).1 = Except.ok (v.items_.read i)
        ∧ v.toList[i]? = some (v.items_.read i))
    ∧ (v.At i).2 = v := by
  refine ⟨?_, ?_, ?_, ?_⟩
  · by_cases h : i ≥ v.size_
    · simp [At, GetSize, h]
    · simp [At, GetSize, h]
  · intro he
    have h0 : v.size_ = 0 := by simpa [IsEmpty] using he
    have h : i ≥ v.size_ := by omega
    simp [At, h]
  · intro h
    have h2 : ¬ i ≥ v.size_ := by
      have : i < v.size_ := h
      omega
    exact ⟨by simp [At, h2], toList_getElem? v i h⟩
  · unfold At
    split <;> rfl

/-- C6: for every vector that satisfies its invariant and every `m`, `Resize(m)` leaves
size `m`, the elements below `min(size, m)` unchanged, the default value at every index
from the old size up to `m`, the same capacity when `m <= capacity`, and the capacity
`max(m, 2 * capacity)` when `m > capacity`. -/
theorem resize_contract [Elem α] (v : SimpleVector α) (m : Nat) (hv : v.Valid) :
    (v.Resize m).GetSize = m
    ∧ (∀ i, i < min v.GetSize m → (v.Resize m).items_.read i = v.items_.read i)
    ∧ (∀ i, v.GetSize ≤ i → i < m → (v.Resize m).items_.read i = Elem.dflt)
    ∧ (m ≤ v.GetCapacity → (v.Resize m).GetCapacity = v.GetCapacity)
    ∧ (v.GetCapacity < m → (v.Resize m).GetCapacity = max m (2 * v.GetCapacity)) := by
  refine ⟨Resize_size v m, ?_, fun i h1 h2 => Resize_read_new v m i hv h1 h2,
    fun h => Resize_capacity_le v m h, ?_⟩
  · intro i hi
    exact Resize_read_old v m i hv (lt_of_lt_of_le hi (min_le_left _ _))
  · intro h
    show (v.Resize m).capacity_ = max m (2 * v.capacity_)
    rw [Resize_capacity_gt v m hv h, Nat.mul_comm]

theorem resize_contract_witness :
    (sampleRoom.Resize 4).items_.read 3 = 0 ∧ (sampleRoom.Resize 4).GetCapacity = 4
    ∧ (sampleRoom.Resize 6).items_.read 5 = 0 ∧ (sampleRoom.Resize 6).GetCapacity = 8
    ∧ (sampleRoom.Resize 6).items_.read 2 = 3 :=
  ⟨(resize_contract sampleRoom 4 (by decide)).2.2.1 3 (by decide) (by decide),
    (resize_contract sampleRoom 4 (by decide)).2.2.2.1 (by decide),
    (resize_contract sampleRoom 6 (by decide)).2.2.1 5 (by decide) (by decide),
    (resize_contract sampleRoom 6 (by decide)).2.2.2.2 (by decide),
    (resize_contract sampleRoom 6 (by decide)).2.1 2 (by decide)⟩

/-- C7, the claim as stated, at a concrete input: `Resize(5)` on the default-constructed
vector is a growth from capacity `0`, and the capacity afterwards is `5`, not `1`. -/
theorem resize_from_capacity_zero_is_not_one :
    (ctor_default : SimpleVector Nat).Valid
    ∧ (ctor_default : SimpleVector Nat).GetCapacity = 0
    ∧ (ctor_default : SimpleVector Nat).GetCapacity < 5
    ∧ ((ctor_default : SimpleVector Nat).Resize 5).GetSize = 5
    ∧ ((ctor_default : SimpleVector Nat).Resize 5).GetCapacity = 5
    ∧ ((ctor_default : SimpleVector Nat).Resize 5).GetCapacity ≠ 1 := by
  decide

/-- C7, amended: after a growth-triggering operation (`PushBack` or `Insert` on a vector
with `size_ == capacity_`, `Resize(m)` with `m > capacity_`) the capacity is
`max(requiredSize, 2 * previousCapacity)`, where `requiredSize` is the size after the
operation; for `PushBack` and `Insert` a growth from capacity `0` therefore yields capacity
`1`, while `Resize(m)` from capacity `0` yields capacity `m`. -/
theorem growth_capacity [Elem α] (v : SimpleVector α) (hv : v.Valid) :
    (∀ x : Arg α, v.GetSize = v.GetCapacity →
        (v.PushBack x).GetCapacity = max (v.PushBack x).GetSize (2 * v.GetCapacity)
        ∧ (v.GetCapacity = 0 → (v.PushBack x).GetCapacity = 1))
    ∧ (∀ n (x : Arg α), n ≤ v.GetSize → v.GetSize = v.GetCapacity →
        ∃ w : SimpleVector α, v.Insert n x = some (w, n)
          ∧ w.GetCapacity = max w.GetSize (2 * v.GetCapacity)
          ∧ (v.GetCapacity = 0 → w.GetCapacity = 1))
    ∧ (∀ m, v.GetCapacity < m →
        (v.Resize m).GetCapacity = max (v.Resize m).GetSize (2 * v.GetCapacity)
        ∧ (v.GetCapacity = 0 → (v.Resize m).GetCapacity = m)) := by
  refine ⟨?_, ?_, ?_⟩
  · intro x hfull
    have hc := PushBack_arg_capacity_full v x hv hfull
    have hs := PushBack_arg_size v x
    have hfull2 : v.size_ = v.capacity_ := hfull
    refine ⟨?_, ?_⟩
    · show (v.PushBack x).capacity_ = max (v.PushBack x).size_ (2 * v.capacity_)
      rw [hc, hs, hfull2, Nat.mul_comm]
    · intro h0
      have h0 : v.capacity_ = 0 := h0
      show (v.PushBack x).capacity_ = 1
      rw [hc, h0]
      rfl
  · intro n x hn hfull
    have hfull2 : v.size_ = v.capacity_ := hfull
    obtain ⟨w, hw, -, hsz, hcap, -⟩ := Insert_arg_spec v n x hv hn (Or.inr (Or.inr hfull2))
    rw [if_pos hfull2] at hcap
    refine ⟨w, hw, ?_, ?_⟩
    · show w.capacity_ = max w.size_ (2 * v.capacity_)
      rw [hcap, hsz, Nat.mul_comm]
    · intro h0
      have h0 : v.capacity_ = 0 := h0
      show w.capacity_ = 1
      rw [hcap, hfull2, h0]
      rfl
  · intro m hm
    have hc := Resize_capacity_gt v m hv hm
    refine ⟨?_, ?_⟩
    · show (v.Resize m).capacity_ = max (v.Resize m).size_ (2 * v.capacity_)
      rw [hc, Resize_size, Nat.mul_comm]
    · intro h0
      have h0 : v.capacity_ = 0 := h0
      show (v.Resize m).capacity_ = m
      rw [hc, h0]
      simp

theorem growth_capacity_witness :
    (sampleFull.PushBack (Arg.ext 7)).GetCapacity = max (sampleFull.PushBack (Arg.ext 7)).GetSize
      (2 * sampleFull.GetCapacity)
    ∧ (∃ w : SimpleVector Nat, sampleFull.Insert 1 (Arg.ext 7) = some (w, 1)
        ∧ w.GetCapacity = max w.GetSize (2 * sampleFull.GetCapacity)
        ∧ (sampleFull.GetCapacity = 0 → w.GetCapacity = 1))
    ∧ (sampleFull.Resize 9).GetCapacity = max (sampleFull.Resize 9).GetSize
        (2 * sampleFull.GetCapacity) :=
  ⟨((growth_capacity sampleFull (by decide)).1 (Arg.ext 7) (by decide)).1,
    (growth_capacity sampleFull (by decide)).2.1 1 (Arg.ext 7) (by decide) (by decide),
    ((growth_capacity sampleFull (by decide)).2.2 9 (by decide)).1⟩

theorem std_copy_congr (src src' : Nat → α) (first last : Nat) (dst : ArrayPtr α) (d : Nat)
    (h : ∀ k, k < last - first → src (first + k) = src' (first + k)) :
    std_copy src first last dst d = std_copy src' first last dst d := by
  unfold std_copy
  generalize last - first = n at h
  induction n with
  | zero => rfl
  | succ n ih =>
    simp only [List.range_succ, List.foldl_append, List.foldl_cons, List.foldl_nil]
    rw [ih (fun k hk => h k (by omega)), h n (by omega)]

theorem std_copy_move_fst_read [Elem α] (src : ArrayPtr α) (first last : Nat)
    (dst : ArrayPtr α) (d j : Nat) (hj : first + (last - first) ≤ j) :
    (std_copy_move src first last dst d).1.read j = src.read j := by
  unfold std_copy_move
  exact (std_copy_move_aux src dst first d (last - first)).2 j hj

theorem Insert_move_fst [Elem α] (v : SimpleVector α) (pos : Nat) (value : α) :
    (v.Insert_move pos (Arg.ext value)).map (fun r => (r.1, r.2.1))
      = v.Insert pos (Arg.ext value) := by
  unfold Insert_move Insert
  by_cases hpos : pos ≤ v.size_
  · rw [if_neg (not_not.mpr hpos), if_neg (not_not.mpr hpos)]
    by_cases h0 : v.capacity_ = 0
    · simp only [if_pos h0, Option.map_some', PushBack_move_fst]
    · by_cases h : v.size_ < v.capacity_
      · simp only [if_neg h0, if_pos h, Option.map_some', Arg.read, Arg.moved_out]
      · simp only [if_neg h0, if_neg h, Option.map_some', swap, ArrayPtr.swap,
          std_copy_move_snd, Arg.read, Arg.moved_out]
        have hc : std_copy (std_copy_move v.items_ 0 pos (ctor_size (v.capacity_ * 2)).items_
              0).1.read pos v.size_
            (std_copy v.items_.read 0 pos (ctor_size (v.capacity_ * 2)).items_ 0) (pos + 1)
            = std_copy v.items_.read pos v.size_
            (std_copy v.items_.read 0 pos (ctor_size (v.capacity_ * 2)).items_ 0) (pos + 1) := by
          apply std_copy_congr
          intro k _
          exact std_copy_move_fst_read _ _ _ _ _ _ (by omega)
        rw [hc]
  · rw [if_pos hpos, if_pos hpos]
    rfl

theorem Resize_size_le [Elem α] (v : SimpleVector α) (m : Nat) (hs : v.size_ ≤ v.capacity_) :
    (v.Resize m).size_ ≤ (v.Resize m).capacity_ := by
  by_cases h1 : m ≤ v.size_
  · rw [Resize_shrink v m h1]
    show m ≤ v.capacity_
    omega
  · by_cases h2 : m ≤ v.capacity_
    · rw [Resize_inplace v m h1 h2]
      exact h2
    · rw [Resize_grow v m h1 h2]
      exact le_max_left _ _

theorem PushBack_arg_size_le [Elem α] (v : SimpleVector α) (item : Arg α)
    (hs : v.size_ ≤ v.capacity_) : (v.PushBack item).size_ ≤ (v.PushBack item).capacity_ := by
  by_cases h : v.size_ = v.capacity_
  · rw [PushBack_full v item h]
    exact Resize_size_le v _ hs
  · rw [PushBack_room v item h]
    show v.size_ + 1 ≤ v.capacity_
    omega

theorem PushBack_size_le [Elem α] (v : SimpleVector α) (item : α)
    (hs : v.size_ ≤ v.capacity_) :
    (v.PushBack (Arg.ext item)).size_ ≤ (v.PushBack (Arg.ext item)).capacity_ :=
  PushBack_arg_size_le v _ hs

theorem PushBack_move_arg_size_le [Elem α] (v : SimpleVector α) (item : Arg α)
    (hs : v.size_ ≤ v.capacity_) :
    (v.PushBack_move item).1.size_ ≤ (v.PushBack_move item).1.capacity_ := by
  unfold PushBack_move
  by_cases h : v.size_ = v.capacity_
  · simp only [if_pos h]
    exact Resize_size_le v _ hs
  · simp only [if_neg h]
    show v.size_ + 1 ≤ v.capacity_
    omega

theorem Insert_arg_size_le [Elem α] (v : SimpleVector α) (pos : Nat) (value : Arg α)
    (hs : v.size_ ≤ v.capacity_) (hpos : pos ≤ v.size_) :
    ∃ r : SimpleVector α × Nat, v.Insert pos value = some r
      ∧ r.1.size_ ≤ r.1.capacity_ := by
  by_cases h0 : v.capacity_ = 0
  · exact ⟨_, Insert_eq_cap0 v pos value hpos h0, PushBack_arg_size_le v value hs⟩
  · by_cases h : v.size_ < v.capacity_
    · exact ⟨_, Insert_eq_room v pos value hpos h0 h, h⟩
    · refine ⟨_, Insert_eq_grow v pos value hpos h0 h, ?_⟩
      show v.size_ + 1 ≤ v.capacity_ * 2
      omega

theorem Insert_move_arg_size_le [Elem α] (v : SimpleVector α) (pos : Nat) (value : Arg α)
    (hs : v.size_ ≤ v.capacity_) (hpos : pos ≤ v.size_) :
    ∃ r : SimpleVector α × Nat × α, v.Insert_move pos value = some r
      ∧ r.1.size_ ≤ r.1.capacity_ := by
  unfold Insert_move
  rw [if_neg (not_not.mpr hpos)]
  by_cases h0 : v.capacity_ = 0
  · simp only [if_pos h0]
    exact ⟨_, rfl, PushBack_move_arg_size_le v value hs⟩
  · by_cases h : v.size_ < v.capacity_
    · simp only [if_neg h0, if_pos h]
      exact ⟨_, rfl, h⟩
    · simp only [if_neg h0, if_neg h]
      refine ⟨_, rfl, ?_⟩
      show v.size_ + 1 ≤ (ctor_size (v.capacity_ * 2) : SimpleVector α).capacity_
      rw [ctor_size_capacity]
      omega

/-- C8: `size_ <= capacity_` holds after every constructor (default, sized, filled by copy
and by move, initializer list, reservation, copy, move, for the new vector and for the
source of the move) and is preserved by `PushBack`, `Insert` (offset at most the size),
`Erase` (offset below the size), `PopBack` (size positive), `Resize`, `Reserve`, `Clear`,
`swap`, copy assignment and move assignment, each of which returns a result under the
condition stated. -/
theorem size_le_capacity_invariant [Elem α] (v other : SimpleVector α)
    (hv : v.GetSize ≤ v.GetCapacity) (ho : other.GetSize ≤ other.GetCapacity) :
    ((ctor_default : SimpleVector α).GetSize ≤ (ctor_default : SimpleVector α).GetCapacity
      ∧ (∀ n, (ctor_size n : SimpleVector α).GetSize ≤ (ctor_size n : SimpleVector α).GetCapacity)
      ∧ (∀ n (x : α), (ctor_fill n x).GetSize ≤ (ctor_fill n x).GetCapacity)
      ∧ (∀ n (x : α), (ctor_fill_move n x).1.GetSize ≤ (ctor_fill_move n x).1.GetCapacity)
      ∧ (∀ l : List α, (ctor_init l).GetSize ≤ (ctor_init l).GetCapacity)
      ∧ (∀ n, (ctor_reserve (SimpleVectorVerif.Reserve n) : SimpleVector α).GetSize
          ≤ (ctor_reserve (SimpleVectorVerif.Reserve n) : SimpleVector α).GetCapacity)
      ∧ (ctor_copy other).GetSize ≤ (ctor_copy other).GetCapacity
      ∧ (ctor_move other).1.GetSize ≤ (ctor_move other).1.GetCapacity
      ∧ (ctor_move other).2.GetSize ≤ (ctor_move other).2.GetCapacity)
    ∧ ((∀ x : Arg α, (v.PushBack x).GetSize ≤ (v.PushBack x).GetCapacity)
      ∧ (∀ x : Arg α, (v.PushBack_move x).1.GetSize ≤ (v.PushBack_move x).1.GetCapacity)
      ∧ (∀ n (x : Arg α), n ≤ v.GetSize →
          ∃ r, v.Insert n x = some r ∧ r.1.GetSize ≤ r.1.GetCapacity)
      ∧ (∀ n (x : Arg α), n ≤ v.GetSize →
          ∃ r, v.Insert_move n x = some r ∧ r.1.GetSize ≤ r.1.GetCapacity)
      ∧ (∀ n, n < v.GetSize → ∃ r, v.Erase n = some r ∧ r.1.GetSize ≤ r.1.GetCapacity)
      ∧ (0 < v.GetSize → ∃ w, v.PopBack = some w ∧ w.GetSize ≤ w.GetCapacity)
      ∧ (∀ m, (v.Resize m).GetSize ≤ (v.Resize m).GetCapacity)
      ∧ (∀ m, (v.Reserve m).GetSize ≤ (v.Reserve m).GetCapacity)
      ∧ v.Clear.GetSize ≤ v.Clear.GetCapacity
      ∧ (v.swap other).1.GetSize ≤ (v.swap other).1.GetCapacity
      ∧ (v.swap other).2.GetSize ≤ (v.swap other).2.GetCapacity
      ∧ (v.copy_assign other).GetSize ≤ (v.copy_assign other).GetCapacity
      ∧ v.copy_assign_self.GetSize ≤ v.copy_assign_self.GetCapacity
      ∧ (v.move_assign other).1.GetSize ≤ (v.move_assign other).1.GetCapacity
      ∧ (v.move_assign other).2.GetSize ≤ (v.move_assign other).2.GetCapacity
      ∧ v.move_assign_self.GetSize ≤ v.move_assign_self.GetCapacity) := by
  have hv2 : v.size_ ≤ v.capacity_ := hv
  have ho2 : other.size_ ≤ other.capacity_ := ho
  refine ⟨⟨Nat.le_refl _, fun _ => Nat.le_refl _, fun _ _ => Nat.le_refl _,
    fun _ _ => Nat.le_refl _, fun _ => Nat.le_refl _, fun _ => Nat.zero_le _, ho2, ho2,
    Nat.le_refl _⟩, ?_⟩
  refine ⟨fun x => PushBack_arg_size_le v x hv2, fun x => PushBack_move_arg_size_le v x hv2,
    fun n x hn => Insert_arg_size_le v n x hv2 hn,
    fun n x hn => Insert_move_arg_size_le v n x hv2 hn,
    ?_, ?_, fun m => Resize_size_le v m hv2, ?_, Nat.zero_le _, ho2, hv2, ho2, hv2, ho2,
    Nat.le_refl _, hv2⟩
  · intro n hn
    refine ⟨_, Erase_eq v n hn, ?_⟩
    show v.size_ - 1 ≤ v.capacity_
    omega
  · intro hpos
    have hpos2 : 0 < v.size_ := hpos
    refine ⟨{ v with size_ := v.size_ - 1 }, ?_, ?_⟩
    · unfold PopBack
      rw [if_neg (by omega)]
    · show v.size_ - 1 ≤ v.capacity_
      omega
  · intro m
    unfold Reserve
    by_cases h : v.capacity_ ≥ m
    · rw [if_pos h]
      exact hv2
    · rw [if_neg h]
      show v.size_ ≤ m
      omega

theorem size_le_capacity_invariant_witness :
    (∀ x : Arg Nat, (sampleFull.PushBack x).GetSize ≤ (sampleFull.PushBack x).GetCapacity)
    ∧ (∀ n (x : Arg Nat), n ≤ sampleFull.GetSize →
        ∃ r, sampleFull.Insert n x = some r ∧ r.1.GetSize ≤ r.1.GetCapacity)
    ∧ (sampleFull.swap sampleRoom).1.GetSize ≤ (sampleFull.swap sampleRoom).1.GetCapacity :=
  ⟨(size_le_capacity_invariant sampleFull sampleRoom (by decide) (by decide)).2.1,
    (size_le_capacity_invariant sampleFull sampleRoom (by decide) (by decide)).2.2.2.1,
    (size_le_capacity_invariant sampleFull sampleRoom (by decide)
      (by decide)).2.2.2.2.2.2.2.2.2.2.1⟩

theorem std_equal_loop_iff [Elem α] [DecidableEq α] (p q : ArrayPtr α) :
    ∀ count first1 first2 : Nat,
      std_equal_loop p q count first1 first2 = true ↔
        ∀ k, k < count → p.read (first1 + k) = q.read (first2 + k) := by
  intro count
  induction count with
  | zero =>
    intro first1 first2
    simp [std_equal_loop]
  | succ n ih =>
    intro first1 first2
    unfold std_equal_loop
    by_cases h : p.read first1 = q.read first2
    · rw [if_pos h, ih]
      constructor
      · intro hall k hk
        cases k with
        | zero => exact h
        | succ k =>
          have := hall k (by omega)
          have e1 : first1 + (k + 1) = first1 + 1 + k := by omega
          have e2 : first2 + (k + 1) = first2 + 1 + k := by omega
          rw [e1, e2]
          exact this
      · intro hall k hk
        have := hall (k + 1) (by omega)
        have e1 : first1 + (k + 1) = first1 + 1 + k := by omega
        have e2 : first2 + (k + 1) = first2 + 1 + k := by omega
        rw [e1, e2] at this
        exact this
    · rw [if_neg h]
      constructor
      · intro hf
        exact absurd hf (by simp)
      · intro hall
        exact absurd (hall 0 (by omega)) h

theorem eq_iff [Elem α] [DecidableEq α] (a b : SimpleVector α) :
    eq a b = true ↔
      a.size_ = b.size_ ∧ ∀ i, i < a.size_ → a.items_.read i = b.items_.read i := by
  unfold eq std_equal GetSize
  by_cases h : a.size_ = b.size_
  · have h1 : ¬ a.size_ ≠ b.size_ := not_not.mpr h
    have h2 : ¬ 0 + a.size_ - 0 ≠ 0 + b.size_ - 0 := by omega
    rw [if_neg h1, if_neg h2, std_equal_loop_iff]
    constructor
    · intro hall
      refine ⟨h, fun i hi => ?_⟩
      have := hall i (by omega)
      simpa using this
    · intro hall k hk
      have := hall.2 k (by omega)
      simpa using this
  · have h1 : a.size_ ≠ b.size_ := h
    rw [if_pos h1]
    constructor
    · intro hf
      exact absurd hf (by simp)
    · intro hall
      exact absurd hall.1 h

theorem toList_eq_iff [Elem α] (a b : SimpleVector α) :
    a.toList = b.toList ↔
      a.size_ = b.size_ ∧ ∀ i, i < a.size_ → a.items_.read i = b.items_.read i := by
  constructor
  · intro h
    have hlen : a.size_ = b.size_ := by
      have := congrArg List.length h
      rwa [toList_length, toList_length] at this
    refine ⟨hlen, fun i hi => ?_⟩
    have h1 := congrArg (fun l => l[i]?) h
    simp only [] at h1
    rw [toList_getElem? a i hi, toList_getElem? b i (by omega)] at h1
    exact Option.some.inj h1
  · intro h
    apply toList_ext
    · rw [toList_length]
      exact h.1.symm
    · intro i hi
      rw [toList_length] at hi
      rw [toList_getElem]
      exact h.2 i (by omega)

theorem ctor_init_toList [Elem α] (init : List α) : (ctor_init init).toList = init := by
  apply toList_ext
  · rfl
  · intro i hi
    show (std_copy _ 0 init.length _ 0).read i = _
    rw [std_copy_read, ArrayPtr.length_ofSize, if_pos ⟨by omega, by omega, hi⟩]
    simp [hi]

/-- C9: `a == b` holds exactly when the sizes are equal and the live elements are equal
index by index, that is when the live elements form the same list, whatever the capacities
and the slots from the size on hold; `a != b` is the negation; a vector built from an
initializer list has that list as live elements and is equal to a vector built from the
same list; and after `PushBack` on one of two equal vectors they are unequal. -/
theorem equality_contract [Elem α] [DecidableEq α] (a b : SimpleVector α) :
    (eq a b = true ↔
        a.GetSize = b.GetSize ∧ ∀ i, i < a.GetSize → a.items_.read i = b.items_.read i)
    ∧ (eq a b = true ↔ a.toList = b.toList)
    ∧ (∀ a' b' : SimpleVector α, a'.toList = a.toList → b'.toList = b.toList →
        eq a' b' = eq a b)
    ∧ ne a b = !(eq a b)
    ∧ (∀ init : List α, (ctor_init init).toList = init
        ∧ eq (ctor_init init) (ctor_init init) = true)
    ∧ (∀ x : Arg α, eq a b = true →
        eq (a.PushBack x) b = false ∧ eq a (b.PushBack x) = false
        ∧ ne (a.PushBack x) b = true ∧ ne a (b.PushBack x) = true) := by
  have key : ∀ c d : SimpleVector α, eq c d = true ↔ c.toList = d.toList := by
    intro c d
    rw [eq_iff, toList_eq_iff]
  have hsize : ∀ c d : SimpleVector α, c.size_ ≠ d.size_ → eq c d = false := by
    intro c d hne
    cases hcd : eq c d with
    | false => rfl
    | true => exact absurd ((eq_iff c d).mp hcd).1 hne
  refine ⟨eq_iff a b, key a b, ?_, rfl, ?_, ?_⟩
  · intro a' b' ha hb
    have h1 := key a' b'
    have h2 := key a b
    rw [ha, hb] at h1
    cases h : eq a b with
    | true =>
      exact h1.mpr (h2.mp h)
    | false =>
      cases h' : eq a' b' with
      | false => rfl
      | true =>
        have := h2.mpr (h1.mp h')
        rw [h] at this
        exact absurd this (by simp)
  · intro init
    exact ⟨ctor_init_toList init, (key _ _).mpr rfl⟩
  · intro x hab
    have hs : a.size_ = b.size_ := ((eq_iff a b).mp hab).1
    have h1 : eq (a.PushBack x) b = false :=
      hsize _ _ (by rw [PushBack_arg_size]; omega)
    have h2 : eq a (b.PushBack x) = false :=
      hsize _ _ (by rw [PushBack_arg_size]; omega)
    refine ⟨h1, h2, ?_, ?_⟩
    · unfold ne
      rw [h1]
      rfl
    · unfold ne
      rw [h2]
      rfl

theorem lex_loop_iff [Elem α] [LinearOrder α] (p q : ArrayPtr α) (last1 last2 : Nat) :
    ∀ left first1 first2 : Nat, first1 + left = last1 → first2 ≤ last2 →
      (lexicographical_compare_loop p q last1 last2 left first1 first2 = true ↔
        (∃ k, k < left ∧ first2 + k < last2
            ∧ (∀ i, i < k → p.read (first1 + i) = q.read (first2 + i))
            ∧ p.read (first1 + k) < q.read (first2 + k))
        ∨ (first2 + left < last2 ∧ ∀ i, i < left → p.read (first1 + i) = q.read (first2 + i))) := by
  intro left
  induction left with
  | zero =>
    intro first1 first2 h1 h2
    have e1 : first1 = last1 := by omega
    simp only [lexicographical_compare_loop, e1, decide_True, Bool.true_and, decide_eq_true_eq]
    constructor
    · intro hne
      exact Or.inr ⟨by omega, fun i hi => absurd hi (Nat.not_lt_zero i)⟩
    · rintro (⟨k, hk, -⟩ | ⟨h, -⟩)
      · omega
      · omega
  | succ n ih =>
    intro first1 first2 h1 h2
    have hf1 : first1 ≠ last1 := by omega
    unfold lexicographical_compare_loop
    by_cases hf2 : first2 = last2
    · have hc : ¬ (first1 ≠ last1 ∧ first2 ≠ last2) := fun h => h.2 hf2
      rw [if_neg hc]
      constructor
      · intro h
        simp [hf1] at h
      · rintro (⟨k, -, hk, -⟩ | ⟨h, -⟩)
        · omega
        · omega
    · rw [if_pos ⟨hf1, hf2⟩]
      by_cases hlt : p.read first1 < q.read first2
      · rw [if_pos hlt]
        refine ⟨fun _ => Or.inl ⟨0, by omega, by omega, ?_, hlt⟩, fun _ => rfl⟩
        intro i hi
        omega
      · rw [if_neg hlt]
        by_cases hgt : q.read first2 < p.read first1
        · rw [if_pos hgt]
          constructor
          · intro h
            exact absurd h (by simp)
          · rintro (⟨k, -, -, hall, hk⟩ | ⟨-, hall⟩)
            · cases k with
              | zero => exact absurd hk hlt
              | succ k =>
                have h0 := hall 0 (by omega)
                rw [Nat.add_zero, Nat.add_zero] at h0
                rw [h0] at hgt
                exact absurd hgt (lt_irrefl _)
            · have h0 := hall 0 (by omega)
              rw [Nat.add_zero, Nat.add_zero] at h0
              rw [h0] at hgt
              exact absurd hgt (lt_irrefl _)
        · rw [if_neg hgt]
          have heq : p.read first1 = q.read first2 :=
            le_antisymm (not_lt.mp hgt) (not_lt.mp hlt)
          rw [ih (first1 + 1) (first2 + 1) (by omega) (by omega)]
          have e1 : ∀ i, first1 + (i + 1) = first1 + 1 + i := fun i => by omega
          have e2 : ∀ i, first2 + (i + 1) = first2 + 1 + i := fun i => by omega
          constructor
          · rintro (⟨k, hk, hb, hall, hkk⟩ | ⟨hb, hall⟩)
            · refine Or.inl ⟨k + 1, by omega, by omega, ?_, ?_⟩
              · intro i hi
                cases i with
                | zero => exact heq
                | succ i =>
                  rw [e1, e2]
                  exact hall i (by omega)
              · rw [e1, e2]
                exact hkk
            · refine Or.inr ⟨by omega, ?_⟩
              intro i hi
              cases i with
              | zero => exact heq
              | succ i =>
                rw [e1, e2]
                exact hall i (by omega)
          · rintro (⟨k, hk, hb, hall, hkk⟩ | ⟨hb, hall⟩)
            · cases k with
              | zero => exact absurd hkk hlt
              | succ k =>
                refine Or.inl ⟨k, by omega, by omega, ?_, ?_⟩
                · intro i hi
                  have := hall (i + 1) (by omega)
                  rw [e1, e2] at this
                  exact this
                · rw [e1, e2] at hkk
                  exact hkk
            · refine Or.inr ⟨by omega, ?_⟩
              intro i hi
              have := hall (i + 1) (by omega)
              rw [e1, e2] at this
              exact this

theorem lt_iff [Elem α] [LinearOrder α] (a b : SimpleVector α) :
    lt a b = true ↔
      (∃ k, k < a.size_ ∧ k < b.size_
          ∧ (∀ i, i < k → a.items_.read i = b.items_.read i)
          ∧ a.items_.read k < b.items_.read k)
      ∨ (a.size_ < b.size_ ∧ ∀ i, i < a.size_ → a.items_.read i = b.items_.read i) := by
  unfold lt std_lexicographical_compare
  rw [lex_loop_iff a.items_ b.items_ a.size_ b.size_ (a.size_ - 0) 0 0 (by omega) (by omega)]
  simp only [Nat.zero_add, Nat.sub_zero]

theorem lex_cons_cons [LinearOrder α] (a b : α) (l₁ l₂ : List α) :
    List.Lex (fun x y : α => x < y) (a :: l₁) (b :: l₂) ↔
      a < b ∨ (a = b ∧ List.Lex (fun x y : α => x < y) l₁ l₂) := by
  constructor
  · intro h
    cases h with
    | cons h => exact Or.inr ⟨rfl, h⟩
    | rel h => exact Or.inl h
  · rintro (h | ⟨rfl, h⟩)
    · exact List.Lex.rel h
    · exact List.Lex.cons h

theorem lex_loop_lex [Elem α] [LinearOrder α] (p q : ArrayPtr α) (last1 last2 : Nat) :
    ∀ left first1 first2 : Nat, first1 + left = last1 → first2 ≤ last2 →
      (lexicographical_compare_loop p q last1 last2 left first1 first2 = true ↔
        List.Lex (fun x y : α => x < y) ((List.range' first1 left).map p.read)
          ((List.range' first2 (last2 - first2)).map q.read)) := by
  intro left
  induction left with
  | zero =>
    intro first1 first2 h1 h2
    have e1 : first1 = last1 := by omega
    simp only [lexicographical_compare_loop, e1, decide_True, Bool.true_and, decide_eq_true_eq,
      List.range'_zero, List.map_nil]
    constructor
    · intro hne
      obtain ⟨m, hm⟩ : ∃ m, last2 - first2 = m + 1 := ⟨last2 - first2 - 1, by omega⟩
      rw [hm, List.range'_succ, List.map_cons]
      exact List.Lex.nil
    · intro h hc
      have e2 : last2 - first2 = 0 := by omega
      rw [e2] at h
      exact List.Lex.not_nil_right _ _ h
  | succ n ih =>
    intro first1 first2 h1 h2
    have hf1 : first1 ≠ last1 := by omega
    unfold lexicographical_compare_loop
    by_cases hf2 : first2 = last2
    · have hc : ¬ (first1 ≠ last1 ∧ first2 ≠ last2) := fun h => h.2 hf2
      have e2 : last2 - first2 = 0 := by omega
      rw [if_neg hc, e2]
      constructor
      · intro h
        simp [hf1] at h
      · intro h
        exact absurd h (List.Lex.not_nil_right _ _)
    · obtain ⟨m, hm⟩ : ∃ m, last2 - first2 = m + 1 := ⟨last2 - first2 - 1, by omega⟩
      have hm2 : last2 - (first2 + 1) = m := by omega
      rw [if_pos ⟨hf1, hf2⟩, hm, List.range'_succ, List.range'_succ, List.map_cons,
        List.map_cons, lex_cons_cons, ← hm2, ← ih (first1 + 1) (first2 + 1) (by omega) (by omega)]
      by_cases hlt : p.read first1 < q.read first2
      · rw [if_pos hlt]
        exact ⟨fun _ => Or.inl hlt, fun _ => rfl⟩
      · rw [if_neg hlt]
        by_cases hgt : q.read first2 < p.read first1
        · rw [if_pos hgt]
          constructor
          · intro h
            exact absurd h (by simp)
          · rintro (h | ⟨h, -⟩)
            · exact absurd h hlt
            · rw [h] at hgt
              exact absurd hgt (lt_irrefl _)
        · rw [if_neg hgt]
          have heq : p.read first1 = q.read first2 :=
            le_antisymm (not_lt.mp hgt) (not_lt.mp hlt)
          constructor
          · intro h
            exact Or.inr ⟨heq, h⟩
          · rintro (h | ⟨-, h⟩)
            · exact absurd h hlt
            · exact h

theorem lt_iff_lex [Elem α] [LinearOrder α] (a b : SimpleVector α) :
    lt a b = true ↔ List.Lex (fun x y : α => x < y) a.toList b.toList := by
  unfold lt std_lexicographical_compare toList
  rw [lex_loop_lex a.items_ b.items_ a.size_ b.size_ (a.size_ - 0) 0 0 (by omega) (by omega),
    List.range_eq_range', List.range_eq_range']
  simp only [Nat.sub_zero]

theorem lex_loop_iff_general [Elem α] [LT α] [DecidableRel (fun a b : α => a < b)]
    (p q : ArrayPtr α) (last1 last2 : Nat) :
    ∀ left first1 first2 : Nat, first1 + left = last1 → first2 ≤ last2 →
      (lexicographical_compare_loop p q last1 last2 left first1 first2 = true ↔
        (∃ k, k < left ∧ first2 + k < last2
            ∧ (∀ i, i < k → ¬ p.read (first1 + i) < q.read (first2 + i)
                ∧ ¬ q.read (first2 + i) < p.read (first1 + i))
            ∧ p.read (first1 + k) < q.read (first2 + k))
        ∨ (first2 + left < last2
            ∧ ∀ i, i < left → ¬ p.read (first1 + i) < q.read (first2 + i)
                ∧ ¬ q.read (first2 + i) < p.read (first1 + i))) := by
  intro left
  induction left with
  | zero =>
    intro first1 first2 h1 h2
    have e1 : first1 = last1 := by omega
    simp only [lexicographical_compare_loop, e1, decide_True, Bool.true_and, decide_eq_true_eq]
    constructor
    · intro hne
      exact Or.inr ⟨by omega, fun i hi => absurd hi (Nat.not_lt_zero i)⟩
    · rintro (⟨k, hk, -⟩ | ⟨h, -⟩)
      · omega
      · omega
  | succ n ih =>
    intro first1 first2 h1 h2
    have hf1 : first1 ≠ last1 := by omega
    unfold lexicographical_compare_loop
    by_cases hf2 : first2 = last2
    · have hc : ¬ (first1 ≠ last1 ∧ first2 ≠ last2) := fun h => h.2 hf2
      rw [if_neg hc]
      constructor
      · intro h
        simp [hf1] at h
      · rintro (⟨k, -, hk, -⟩ | ⟨h, -⟩)
        · omega
        · omega
    · rw [if_pos ⟨hf1, hf2⟩]
      by_cases hlt : p.read first1 < q.read first2
      · rw [if_pos hlt]
        refine ⟨fun _ => Or.inl ⟨0, by omega, by omega, ?_, hlt⟩, fun _ => rfl⟩
        intro i hi
        omega
      · rw [if_neg hlt]
        by_cases hgt : q.read first2 < p.read first1
        · rw [if_pos hgt]
          constructor
          · intro h
            exact absurd h (by simp)
          · rintro (⟨k, -, -, hall, hk⟩ | ⟨-, hall⟩)
            · cases k with
              | zero => exact absurd hk hlt
              | succ k =>
                have h0 := (hall 0 (by omega)).2
                rw [Nat.add_zero, Nat.add_zero] at h0
                exact absurd hgt h0
            · have h0 := (hall 0 (by omega)).2
              rw [Nat.add_zero, Nat.add_zero] at h0
              exact absurd hgt h0
        · rw [if_neg hgt]
          rw [ih (first1 + 1) (first2 + 1) (by omega) (by omega)]
          have e1 : ∀ i, first1 + (i + 1) = first1 + 1 + i := fun i => by omega
          have e2 : ∀ i, first2 + (i + 1) = first2 + 1 + i := fun i => by omega
          constructor
          · rintro (⟨k, hk, hb, hall, hkk⟩ | ⟨hb, hall⟩)
            · refine Or.inl ⟨k + 1, by omega, by omega, ?_, ?_⟩
              · intro i hi
                cases i with
                | zero => exact ⟨hlt, hgt⟩
                | succ i =>
                  rw [e1, e2]
                  exact hall i (by omega)
              · rw [e1, e2]
                exact hkk
            · refine Or.inr ⟨by omega, ?_⟩
              intro i hi
              cases i with
              | zero => exact ⟨hlt, hgt⟩
              | succ i =>
                rw [e1, e2]
                exact hall i (by omega)
          · rintro (⟨k, hk, hb, hall, hkk⟩ | ⟨hb, hall⟩)
            · cases k with
              | zero => exact absurd hkk hlt
              | succ k =>
                refine Or.inl ⟨k, by omega, by omega, ?_, ?_⟩
                · intro i hi
                  have := hall (i + 1) (by omega)
                  rw [e1, e2] at this
                  exact this
                · rw [e1, e2] at hkk
                  exact hkk
            · refine Or.inr ⟨by omega, ?_⟩
              intro i hi
              have := hall (i + 1) (by omega)
              rw [e1, e2] at this
              exact this

/-- What `operator<` computes for an arbitrary `operator<` of the elements: `a < b` holds
exactly when, at the first index at which one of the two elements is smaller than the
other, the element of `a` is the smaller one, or there is no such index among those of `a`
and `a` is shorter than `b`. -/
theorem lt_iff_general [Elem α] [LT α] [DecidableRel (fun a b : α => a < b)]
    (a b : SimpleVector α) :
    lt a b = true ↔
      (∃ k, k < a.size_ ∧ k < b.size_
          ∧ (∀ i, i < k → ¬ a.items_.read i < b.items_.read i
              ∧ ¬ b.items_.read i < a.items_.read i)
          ∧ a.items_.read k < b.items_.read k)
      ∨ (a.size_ < b.size_
          ∧ ∀ i, i < a.size_ → ¬ a.items_.read i < b.items_.read i
              ∧ ¬ b.items_.read i < a.items_.read i) := by
  unfold lt std_lexicographical_compare
  rw [lex_loop_iff_general a.items_ b.items_ a.size_ b.size_ (a.size_ - 0) 0 0 (by omega)
    (by omega)]
  simp only [Nat.zero_add, Nat.sub_zero]

/-- C10, the claim as stated, at a concrete input.  The order of `Keyed` is a strict order
(irreflexive and transitive) that is not total.  The vectors `keyedA` and `keyedB` differ
at index `0`, where the element of `keyedA` is not smaller (the keys are equal), and
`keyedA` is not a proper prefix of `keyedB`; yet `keyedA < keyedB` holds, because
`std::lexicographical_compare` passes over index `0`, where neither element is smaller
than the other, and decides at index `1`. -/
theorem lt_on_strict_order_that_is_not_total :
    (∀ a : Keyed, ¬ a < a)
    ∧ (∀ a b c : Keyed, a < b → b < c → a < c)
    ∧ keyedA.items_.read 0 ≠ keyedB.items_.read 0
    ∧ ¬ keyedA.items_.read 0 < keyedB.items_.read 0
    ∧ ¬ keyedB.items_.read 0 < keyedA.items_.read 0
    ∧ lt keyedA keyedB = true
    ∧ ¬ ((∃ k, k < keyedA.GetSize ∧ k < keyedB.GetSize
            ∧ (∀ i, i < k → keyedA.items_.read i = keyedB.items_.read i)
            ∧ keyedA.items_.read k < keyedB.items_.read k)
        ∨ (keyedA.GetSize < keyedB.GetSize
            ∧ ∀ i, i < keyedA.GetSize → keyedA.items_.read i = keyedB.items_.read i)) := by
  refine ⟨fun a => Nat.lt_irrefl a.key, fun a b c hab hbc => Nat.lt_trans hab hbc,
    by decide, by decide, by decide, by decide, ?_⟩
  rintro (⟨k, hk, -, hall, hlt⟩ | ⟨h, -⟩)
  · have hk2 : k < 2 := hk
    have hcases : k = 0 ∨ k = 1 := by omega
    rcases hcases with rfl | rfl
    · exact absurd hlt (by decide)
    · exact absurd (hall 0 (by omega)) (by decide)
  · exact absurd h (by decide)

/-- C10, amended: over an element type with a strict total (linear) order, `a < b` holds
exactly when the live elements of `a` are lexicographically smaller than those of `b`:
either at the first index where they differ the element of `a` is smaller, or `a` is a
proper prefix of `b`; and `a > b` is `b < a`, `a <= b` is the negation of `b < a`,
`a >= b` is the negation of `a < b`. -/
theorem ordering_contract [Elem α] [LinearOrder α] (a b : SimpleVector α) :
    (lt a b = true ↔
        (∃ k, k < a.GetSize ∧ k < b.GetSize
            ∧ (∀ i, i < k → a.items_.read i = b.items_.read i)
            ∧ a.items_.read k < b.items_.read k)
        ∨ (a.GetSize < b.GetSize ∧ ∀ i, i < a.GetSize → a.items_.read i = b.items_.read i))
    ∧ (lt a b = true ↔ List.Lex (fun x y : α => x < y) a.toList b.toList)
    ∧ gt a b = lt b a
    ∧ le a b = !(lt b a)
    ∧ ge a b = !(lt a b) :=
  ⟨lt_iff a b, lt_iff_lex a b, rfl, rfl, rfl⟩

/-- C11: move construction from `s`, and move assignment of `s` to a distinct vector, give
the destination the size, the capacity and the block of `s` (hence its live elements), and
leave `s` with size `0`, capacity `0` and a null `ArrayPtr`. -/
theorem move_contract [Elem α] (s dst : SimpleVector α) :
    ((ctor_move s).1.GetSize = s.GetSize
      ∧ (ctor_move s).1.GetCapacity = s.GetCapacity
      ∧ (ctor_move s).1.toList = s.toList
      ∧ (∀ i, (ctor_move s).1.items_.read i = s.items_.read i)
      ∧ (ctor_move s).2.GetSize = 0
      ∧ (ctor_move s).2.GetCapacity = 0
      ∧ (ctor_move s).2.items_.Get = none
      ∧ (ctor_move s).2.items_.toBool = false)
    ∧ ((move_assign dst s).1.GetSize = s.GetSize
      ∧ (move_assign dst s).1.GetCapacity = s.GetCapacity
      ∧ (move_assign dst s).1.toList = s.toList
      ∧ (∀ i, (move_assign dst s).1.items_.read i = s.items_.read i)
      ∧ (move_assign dst s).2.GetSize = 0
      ∧ (move_assign dst s).2.GetCapacity = 0
      ∧ (move_assign dst s).2.items_.Get = none
      ∧ (move_assign dst s).2.items_.toBool = false) :=
  ⟨⟨rfl, rfl, rfl, fun _ => rfl, rfl, rfl, rfl, rfl⟩,
    ⟨rfl, rfl, rfl, fun _ => rfl, rfl, rfl, rfl, rfl⟩⟩

theorem ctor_copy_read [Elem α] (s : SimpleVector α) (hs : s.Valid) (i : Nat)
    (hi : i < s.size_) : (ctor_copy s).items_.read i = s.items_.read i := by
  have h1 := hs.1
  show (std_copy _ 0 s.size_ _ 0).read i = _
  rw [std_copy_read, ArrayPtr.length_ofSize, if_pos ⟨by omega, by omega, by omega⟩]
  congr 1
  omega

theorem ctor_copy_valid [Elem α] (s : SimpleVector α) (hs : s.Valid) : (ctor_copy s).Valid := by
  refine ⟨hs.1, ?_⟩
  show (std_copy _ 0 s.size_ _ 0).block.length = s.capacity_
  rw [std_copy_length, ArrayPtr.length_ofSize]

theorem ctor_copy_toList [Elem α] (s : SimpleVector α) (hs : s.Valid) :
    (ctor_copy s).toList = s.toList :=
  (toList_eq_iff _ _).mpr ⟨rfl, fun i hi => ctor_copy_read s hs i hi⟩

theorem copy_assign_eq [Elem α] (dst s : SimpleVector α) : copy_assign dst s = ctor_copy s :=
  rfl

/-- C12: for a vector `s` that satisfies its invariant, the copy constructor yields a
vector with the size and the capacity of `s` and with the same live elements index by
index, which therefore compares `==` to `s`; copy assignment of `s` to a distinct vector
gives that vector the same size, capacity and live elements, and copy assignment of `s` to
itself leaves it as it is.  The source is taken by reference to const and is not part of
the result. -/
theorem copy_contract [Elem α] [DecidableEq α] (s dst : SimpleVector α) (hs : s.Valid) :
    ((ctor_copy s).GetSize = s.GetSize
      ∧ (ctor_copy s).GetCapacity = s.GetCapacity
      ∧ (∀ i, i < s.GetSize → (ctor_copy s).items_.read i = s.items_.read i)
      ∧ (ctor_copy s).toList = s.toList
      ∧ eq (ctor_copy s) s = true
      ∧ (ctor_copy s).Valid)
    ∧ ((copy_assign dst s).GetSize = s.GetSize
      ∧ (copy_assign dst s).GetCapacity = s.GetCapacity
      ∧ (∀ i, i < s.GetSize → (copy_assign dst s).items_.read i = s.items_.read i)
      ∧ (copy_assign dst s).toList = s.toList
      ∧ eq (copy_assign dst s) s = true)
    ∧ copy_assign_self s = s := by
  have hr : ∀ i, i < s.GetSize → (ctor_copy s).items_.read i = s.items_.read i :=
    fun i hi => ctor_copy_read s hs i hi
  have he : eq (ctor_copy s) s = true := (eq_iff _ _).mpr ⟨rfl, hr⟩
  refine ⟨⟨rfl, rfl, hr, ctor_copy_toList s hs, he, ctor_copy_valid s hs⟩, ⟨rfl, rfl, ?_, ?_, ?_⟩,
    rfl⟩
  · rw [copy_assign_eq]
    exact hr
  · rw [copy_assign_eq]
    exact ctor_copy_toList s hs
  · rw [copy_assign_eq]
    exact he

theorem copy_contract_witness :
    (ctor_copy sampleRoom).toList = sampleRoom.toList
    ∧ eq (ctor_copy sampleRoom) sampleRoom = true
    ∧ (copy_assign sampleFull sampleRoom).toList = sampleRoom.toList :=
  ⟨(copy_contract sampleRoom sampleFull (by decide)).1.2.2.2.1,
    (copy_contract sampleRoom sampleFull (by decide)).1.2.2.2.2.1,
    (copy_contract sampleRoom sampleFull (by decide)).2.1.2.2.2.1⟩

theorem ctor_fill_read [Elem α] (n : Nat) (value : α) (i : Nat) (hi : i < n) :
    (ctor_fill n value).items_.read i = value := by
  show (std_copy (fun _ => value) 0 n (ArrayPtr.ofSize n) 0).read i = value
  rw [std_copy_read, ArrayPtr.length_ofSize, if_pos ⟨by omega, by omega, hi⟩]

theorem ctor_fill_toList [Elem α] (n : Nat) (value : α) :
    (ctor_fill n value).toList = List.replicate n value := by
  apply toList_ext
  · rw [List.length_replicate]
    rfl
  · intro i hi
    rw [List.length_replicate] at hi
    rw [ctor_fill_read n value i hi]
    simp

theorem fill_move_loop [Elem α] (n : Nat) (p : ArrayPtr α) (value : α) :
    ((List.range n).foldl
        (fun (st : ArrayPtr α × α) i => (st.1.write i st.2, Elem.movedFrom st.2))
        (p, value)).2 = (Elem.movedFrom)^[n] value
    ∧ ∀ j, ((List.range n).foldl
        (fun (st : ArrayPtr α × α) i => (st.1.write i st.2, Elem.movedFrom st.2))
        (p, value)).1.read j
      = if j < n ∧ j < p.block.length then (Elem.movedFrom)^[j] value else p.read j := by
  induction n with
  | zero => simp
  | succ n ih =>
    obtain ⟨ih2, ih1⟩ := ih
    have hl := fill_move_length n p value
    simp only [List.range_succ, List.foldl_append, List.foldl_cons, List.foldl_nil]
    refine ⟨?_, ?_⟩
    · rw [ih2, Function.iterate_succ_apply']
    · intro j
      rw [ArrayPtr.read_write, hl, ih2, ih1 j]
      by_cases hj : j = n
      · subst hj
        by_cases hb : j < p.block.length
        · simp [hb]
        · simp [hb]
      · have h1 : (j < n + 1 ∧ j < p.block.length) ↔ (j < n ∧ j < p.block.length) := by
          constructor <;> intro h <;> exact ⟨by omega, h.2⟩
        simp [hj, h1]

/-- What the constructor `SimpleVector(size_t size, Type &&value)` builds: slot `i` holds
the state of `value` after `i` moves out of it. -/
theorem ctor_fill_move_read [Elem α] (n : Nat) (value : α) (i : Nat) (hi : i < n) :
    (ctor_fill_move n value).1.items_.read i = (Elem.movedFrom)^[i] value := by
  unfold ctor_fill_move
  simp only
  rw [(fill_move_loop n (ArrayPtr.ofSize n) value).2 i, ArrayPtr.length_ofSize,
    if_pos ⟨hi, hi⟩]

/-- C13: evaluation of the two filling constructors at the failing input.  For an element
type whose moved-from state is `0`, `SimpleVector(2, 7)` through the overload taking
`Type &&` has size `2` and capacity `2` but holds `7, 0`: its second element is not the
fill value, while the overload taking `const Type &` holds `7, 7`. -/
theorem fill_by_move_repeats_moved_from_value :
    (ctor_fill_move 2 7 : SimpleVector Nat × Nat).1 = ⟨⟨some [7, 0]⟩, 2, 2⟩
    ∧ (ctor_fill_move 2 7 : SimpleVector Nat × Nat).1.GetSize = 2
    ∧ (ctor_fill_move 2 7 : SimpleVector Nat × Nat).1.GetCapacity = 2
    ∧ (ctor_fill_move 2 7 : SimpleVector Nat × Nat).1.items_.read 0 = 7
    ∧ (ctor_fill_move 2 7 : SimpleVector Nat × Nat).1.items_.read 1 = 0
    ∧ (ctor_fill_move 2 7 : SimpleVector Nat × Nat).1.items_.read 1 ≠ 7
    ∧ (ctor_fill 2 7 : SimpleVector Nat) = ⟨⟨some [7, 7]⟩, 2, 2⟩ := by
  decide

/-- C14: for a vector that satisfies its invariant and `n` at most its size `s`,
`Resize(n)` followed by `Resize(s)` leaves size `s`, the elements below `n` as they were,
the default value at every index from `n` up to `s`, and the same capacity. -/
theorem resize_down_up [Elem α] (v : SimpleVector α) (n : Nat) (hv : v.Valid)
    (hn : n ≤ v.GetSize) :
    ((v.Resize n).Resize v.GetSize).GetSize = v.GetSize
    ∧ (∀ i, i < n → ((v.Resize n).Resize v.GetSize).items_.read i = v.items_.read i)
    ∧ (∀ i, n ≤ i → i < v.GetSize →
        ((v.Resize n).Resize v.GetSize).items_.read i = Elem.dflt)
    ∧ ((v.Resize n).Resize v.GetSize).GetCapacity = v.GetCapacity := by
  have hn2 : n ≤ v.size_ := hn
  have hs := hv.1
  have h1 : v.Resize n = { v with size_ := n } := Resize_shrink v n hn2
  have hv1 : (v.Resize n).Valid := Resize_valid v n hv
  have hsz : (v.Resize n).size_ = n := Resize_size v n
  have hcap : (v.Resize n).capacity_ = v.capacity_ := by rw [h1]
  have hit : (v.Resize n).items_ = v.items_ := by rw [h1]
  refine ⟨Resize_size _ _, ?_, ?_, ?_⟩
  · intro i hi
    rw [Resize_read_old (v.Resize n) _ i hv1 (by omega), hit]
  · intro i h2 h3
    exact Resize_read_new (v.Resize n) _ i hv1 (by omega) h3
  · show ((v.Resize n).Resize v.size_).capacity_ = v.capacity_
    rw [Resize_capacity_le (v.Resize n) _ (by omega), hcap]

theorem resize_down_up_witness :
    ((sampleRoom.Resize 1).Resize sampleRoom.GetSize).GetSize = sampleRoom.GetSize
    ∧ (∀ i, i < 1 →
        ((sampleRoom.Resize 1).Resize sampleRoom.GetSize).items_.read i
          = sampleRoom.items_.read i)
    ∧ (∀ i, 1 ≤ i → i < sampleRoom.GetSize →
        ((sampleRoom.Resize 1).Resize sampleRoom.GetSize).items_.read i = Elem.dflt)
    ∧ ((sampleRoom.Resize 1).Resize sampleRoom.GetSize).GetCapacity
        = sampleRoom.GetCapacity :=
  resize_down_up sampleRoom 1 (by decide) (by decide)

/-- C15: the vector constructed from the request `Reserve(n)` has size `0`, is empty and
has capacity `n`, with a block of `n` slots; the request carries `n`. -/
theorem reserve_ctor_contract [Elem α] (n : Nat) :
    (ctor_reserve (SimpleVectorVerif.Reserve n) : SimpleVector α).GetSize = 0
    ∧ (ctor_reserve (SimpleVectorVerif.Reserve n) : SimpleVector α).IsEmpty = true
    ∧ (ctor_reserve (SimpleVectorVerif.Reserve n) : SimpleVector α).GetCapacity = n
    ∧ (SimpleVectorVerif.Reserve n).capacity = n
    ∧ (ctor_reserve (SimpleVectorVerif.Reserve n) : SimpleVector α).items_.block.length = n
    ∧ (ctor_reserve (SimpleVectorVerif.Reserve n) : SimpleVector α).toList = [] :=
  ⟨rfl, rfl, rfl, rfl, ArrayPtr.length_ofSize n, rfl⟩

/-- C16: `Clear` sets the size to `0` and `PopBack` on a non-empty vector lowers the size
by exactly one; both leave the capacity and the whole block as they were, so every slot,
and in particular every element below the new size, holds what it held before. -/
theorem shrink_frame [Elem α] (v : SimpleVector α) :
    (v.Clear.GetSize = 0
      ∧ v.Clear.GetCapacity = v.GetCapacity
      ∧ v.Clear.items_ = v.items_
      ∧ (∀ i, v.Clear.items_.read i = v.items_.read i))
    ∧ (0 < v.GetSize →
        ∃ w : SimpleVector α, v.PopBack = some w
          ∧ w.GetSize + 1 = v.GetSize
          ∧ w.GetCapacity = v.GetCapacity
          ∧ w.items_ = v.items_
          ∧ (∀ i, w.items_.read i = v.items_.read i)
          ∧ w.toList = v.toList.take w.GetSize) := by
  refine ⟨⟨rfl, rfl, rfl, fun _ => rfl⟩, ?_⟩
  intro hpos
  have hpos2 : 0 < v.size_ := hpos
  refine ⟨{ v with size_ := v.size_ - 1 }, ?_, ?_, rfl, rfl, fun _ => rfl, ?_⟩
  · unfold PopBack
    rw [if_neg (by omega)]
  · show v.size_ - 1 + 1 = v.size_
    omega
  · apply List.ext_getElem?
    intro j
    rw [toList_getElem?_full, List.getElem?_take, toList_getElem?_full]
    show (if j < v.size_ - 1 then _ else _) = if j < v.size_ - 1 then _ else _
    by_cases hj : j < v.size_ - 1
    · rw [if_pos hj, if_pos hj, if_pos (by omega)]
    · rw [if_neg hj, if_neg hj]

theorem insert_shift_steps_eq (n : Int) :
    ∀ (fuel : Nat) (i : Int), (i - n).toNat ≤ fuel →
      insert_shift_steps n fuel i = (i - n).toNat := by
  intro fuel
  induction fuel with
  | zero =>
    intro i h
    have e : (i - n).toNat = 0 := by omega
    rw [e]
    rfl
  | succ k ih =>
    intro i h
    unfold insert_shift_steps
    by_cases hgt : i > n
    · rw [if_pos hgt, ih (i - 1) (by omega)]
      omega
    · rw [if_neg hgt]
      omega

theorem insert_shift_small [Elem α] (v : SimpleVector α) (n : Nat) (hv : v.Valid)
    (hroom : v.size_ < v.capacity_) (hn : n ≤ v.size_) (hsz : v.size_ < 2 ^ 31) :
    ∀ j, n < j → j ≤ v.size_ →
      (insert_shift (n : Int) (toInt32 v.size_ - (n : Int)).toNat (toInt32 v.size_)
        v.items_).read j = v.items_.read (j - 1) := by
  have hl := hv.2
  have e1 : toInt32 v.size_ = ((n + (v.size_ - n) : Nat) : Int) := by
    rw [toInt32_of_lt v.size_ hsz]
    congr 1
    omega
  have e2 : (((n + (v.size_ - n) : Nat) : Int) - (n : Int)).toNat = v.size_ - n := by omega
  obtain ⟨-, -, c, -⟩ := insert_shift_aux n (v.size_ - n) v.items_ (by omega)
  rw [e1, e2]
  intro j h1 h2
  exact c j h1 (by omega)

/-- C17: the counter `int i = size_` of the in-place loop of `Insert`.  There is a vector
with size above `2^31 - 1`, a spare slot and an offset `n` below the size (size `2^31`,
`n = 0`) for which the counter is `-2^31`, the body of the loop is never executed, the
block is left unshifted, and the live elements after `Insert` are not the first `n`
elements, the value, and the remaining elements.  For every size up to `2^31 - 1` and every
offset `n` up to the size, the counter equals the size and the body is executed exactly
`size - n` times, after which every slot in `(n, size]` holds what its left neighbour
held. -/
theorem insert_int_counter [Elem α] (v : SimpleVector α) (n : Nat) :
    (∃ (h w : SimpleVector Nat) (m x : Nat),
        h.Valid ∧ 2 ^ 31 - 1 < h.size_ ∧ h.size_ < h.capacity_ ∧ m < h.size_
        ∧ toInt32 h.size_ = -2147483648
        ∧ insert_shift_steps (m : Int) (toInt32 h.size_ - (m : Int)).toNat (toInt32 h.size_) = 0
        ∧ insert_shift (m : Int) (toInt32 h.size_ - (m : Int)).toNat (toInt32 h.size_) h.items_
            = h.items_
        ∧ h.Insert m (Arg.ext x) = some (w, m)
        ∧ w.toList ≠ h.toList.take m ++ [x] ++ h.toList.drop m)
    ∧ (v.size_ ≤ 2 ^ 31 - 1 → n ≤ v.size_ →
        toInt32 v.size_ = (v.size_ : Int)
        ∧ insert_shift_steps (n : Int) (toInt32 v.size_ - (n : Int)).toNat (toInt32 v.size_)
            = v.size_ - n
        ∧ (v.Valid → v.size_ < v.capacity_ → ∀ j, n < j → j ≤ v.size_ →
            (insert_shift (n : Int) (toInt32 v.size_ - (n : Int)).toNat (toInt32 v.size_)
              v.items_).read j = v.items_.read (j - 1))) := by
  refine ⟨⟨sampleHuge, sampleHugeAfter, 0, 9, sampleHuge_valid, ?_, ?_, ?_, toInt32_sampleHuge,
    ?_, ?_, sampleHuge_insert, ?_⟩, ?_⟩
  · show 2 ^ 31 - 1 < 2147483648
    norm_num
  · show 2147483648 < 2147483649
    omega
  · show 0 < 2147483648
    omega
  · have hsz : sampleHuge.size_ = 2147483648 := rfl
    rw [hsz, toInt32_sampleHuge, insert_shift_steps_eq _ _ _ (Nat.le_refl _)]
    norm_num
  · have hsz : sampleHuge.size_ = 2147483648 := rfl
    rw [hsz, toInt32_sampleHuge, insert_shift_stop _ _ _ _ (by norm_num)]
  · intro heq
    have hnew : sampleHugeAfter.toList[1]? = some 0 := by
      rw [toList_getElem? _ 1 (by show 1 < 2147483649; omega)]
      exact congrArg some sampleHugeAfter_second
    rw [heq, getElem?_one_insert_front, sampleHuge_first] at hnew
    exact absurd hnew (by decide)
  · intro hsz hn
    have hlt : v.size_ < 2 ^ 31 := by omega
    have e := toInt32_of_lt v.size_ hlt
    refine ⟨e, ?_, fun hv hroom => insert_shift_small v n hv hroom hn hlt⟩
    rw [insert_shift_steps_eq _ _ _ (Nat.le_refl _), e]
    omega

theorem Reserve_keep [Elem α] (v : SimpleVector α) (m : Nat) (h : v.capacity_ ≥ m) :
    v.Reserve m = v := by
  unfold Reserve
  rw [if_pos h]

theorem Reserve_grow [Elem α] (v : SimpleVector α) (m : Nat) (h : ¬ v.capacity_ ≥ m) :
    v.Reserve m = ⟨std_copy v.items_.read 0 v.size_ (ArrayPtr.ofSize m) 0, v.size_, m⟩ := by
  unfold Reserve
  rw [if_neg h]
  simp only [ArrayPtr.swap, std_copy_move_snd]

theorem Reserve_read [Elem α] (v : SimpleVector α) (m : Nat) (hv : v.Valid) (i : Nat)
    (hi : i < v.size_) : (v.Reserve m).items_.read i = v.items_.read i := by
  have hs := hv.1
  by_cases h : v.capacity_ ≥ m
  · rw [Reserve_keep v m h]
  · rw [Reserve_grow v m h]
    show (std_copy _ 0 v.size_ _ 0).read i = _
    rw [std_copy_read, ArrayPtr.length_ofSize, if_pos ⟨by omega, by omega, by omega⟩]
    congr 1
    omega

theorem Reserve_size [Elem α] (v : SimpleVector α) (m : Nat) : (v.Reserve m).size_ = v.size_ := by
  by_cases h : v.capacity_ ≥ m
  · rw [Reserve_keep v m h]
  · rw [Reserve_grow v m h]

theorem Reserve_valid [Elem α] (v : SimpleVector α) (m : Nat) (hv : v.Valid) :
    (v.Reserve m).Valid := by
  have hs := hv.1
  by_cases h : v.capacity_ ≥ m
  · rw [Reserve_keep v m h]
    exact hv
  · rw [Reserve_grow v m h]
    refine ⟨by show v.size_ ≤ m; omega, ?_⟩
    show (std_copy _ 0 v.size_ _ 0).block.length = m
    rw [std_copy_length, ArrayPtr.length_ofSize]

/-- C18: for a vector that satisfies its invariant, the method `Reserve(m)` leaves the size
and the live elements as they were, in the same order; the capacity is unchanged when
`m <= capacity` and is exactly `m` when `m > capacity`. -/
theorem reserve_contract [Elem α] (v : SimpleVector α) (m : Nat) (hv : v.Valid) :
    (v.Reserve m).GetSize = v.GetSize
    ∧ (∀ i, i < v.GetSize → (v.Reserve m).items_.read i = v.items_.read i)
    ∧ (v.Reserve m).toList = v.toList
    ∧ (m ≤ v.GetCapacity → (v.Reserve m).GetCapacity = v.GetCapacity)
    ∧ (v.GetCapacity < m → (v.Reserve m).GetCapacity = m)
    ∧ (v.Reserve m).Valid := by
  refine ⟨Reserve_size v m, fun i hi => Reserve_read v m hv i hi, ?_, ?_, ?_,
    Reserve_valid v m hv⟩
  · exact (toList_eq_iff _ _).mpr ⟨Reserve_size v m, fun i hi =>
      Reserve_read v m hv i (by rw [Reserve_size] at hi; exact hi)⟩
  · intro h
    rw [Reserve_keep v m h]
  · intro h
    have h2 : ¬ v.capacity_ ≥ m := by
      have : v.capacity_ < m := h
      omega
    rw [Reserve_grow v m h2]
    rfl

theorem reserve_contract_witness :
    (sampleFull.Reserve 5).toList = sampleFull.toList
    ∧ (sampleFull.Reserve 5).GetCapacity = 5
    ∧ (sampleFull.Reserve 1).GetCapacity = sampleFull.GetCapacity :=
  ⟨(reserve_contract sampleFull 5 (by decide)).2.2.1,
    (reserve_contract sampleFull 5 (by decide)).2.2.2.2.1 (by decide),
    (reserve_contract sampleFull 1 (by decide)).2.2.2.1 (by decide)⟩

/-- `Insert(end(), x)` and `PushBack(x)` for an argument that refers to an object outside
the vector: for a vector that satisfies its invariant, `Insert(end(), x)` succeeds, returns
the iterator at the old `end()` and leaves the same size, the same capacity and the same
live elements as `PushBack(x)`, in each of the cases `capacity_ == 0`,
`size_ < capacity_` and `size_ == capacity_ > 0`; in the first two the whole vector is the
same. -/
theorem insert_at_end_is_pushback [Elem α] (v : SimpleVector α) (x : α) (hv : v.Valid) :
    ∃ w : SimpleVector α, v.Insert v.GetSize (Arg.ext x) = some (w, v.GetSize)
      ∧ w.GetSize = (v.PushBack (Arg.ext x)).GetSize
      ∧ w.GetCapacity = (v.PushBack (Arg.ext x)).GetCapacity
      ∧ w.toList = (v.PushBack (Arg.ext x)).toList
      ∧ (∀ i, i < w.GetSize → w.items_.read i = (v.PushBack (Arg.ext x)).items_.read i)
      ∧ (v.capacity_ = 0 → w = v.PushBack (Arg.ext x))
      ∧ (v.size_ < v.capacity_ → w = v.PushBack (Arg.ext x))
      ∧ (v.size_ = v.capacity_ → 0 < v.capacity_ →
          w.GetCapacity = 2 * v.capacity_
          ∧ (v.PushBack (Arg.ext x)).GetCapacity = 2 * v.capacity_) := by
  have hs := hv.1
  obtain ⟨w, hw, -, hsz, hcap, ha, hb, -⟩ :=
    Insert_spec v v.size_ x hv (Nat.le_refl _) (Or.inr (Or.inl rfl))
  have hpc : (v.PushBack (Arg.ext x)).capacity_ = w.capacity_ := by
    rw [hcap]
    by_cases hfull : v.size_ = v.capacity_
    · rw [if_pos hfull, PushBack_capacity_full v x hv hfull, hfull]
    · rw [if_neg hfull, PushBack_capacity_room v x hfull]
  have hreads : ∀ i, i < w.size_ → w.items_.read i = (v.PushBack (Arg.ext x)).items_.read i := by
    intro i hi
    by_cases hlt : i < v.size_
    · rw [ha i hlt, PushBack_read_old v x hv i hlt]
    · have hie : i = v.size_ := by omega
      rw [hie, hb, PushBack_read_last v x hv]
  refine ⟨w, hw, ?_, hpc.symm, ?_, hreads, ?_, ?_, ?_⟩
  · show w.size_ = (v.PushBack (Arg.ext x)).size_
    rw [hsz, PushBack_size]
  · exact (toList_eq_iff _ _).mpr ⟨by rw [hsz, PushBack_size], hreads⟩
  · intro h0
    have h1 := Insert_eq_cap0 v v.size_ (Arg.ext x) (Nat.le_refl _) h0
    rw [hw] at h1
    exact congrArg Prod.fst (Option.some.inj h1)
  · intro hroom
    have h1 := Insert_eq_room v v.size_ (Arg.ext x) (Nat.le_refl _) (by omega) hroom
    rw [hw, insert_shift_stop _ _ _ _ (toInt32_le v.size_)] at h1
    rw [PushBack_room v (Arg.ext x) (by omega)]
    exact congrArg Prod.fst (Option.some.inj h1)
  · intro hfull hpos
    have e1 : w.capacity_ = 2 * v.capacity_ := by
      rw [hcap, if_pos hfull, hfull]
      rw [max_eq_right (by omega)]
      omega
    exact ⟨e1, by show (v.PushBack (Arg.ext x)).capacity_ = _; rw [hpc, e1]⟩

theorem insert_at_end_is_pushback_witness :
    (∃ w : SimpleVector Nat,
        sampleFull.Insert sampleFull.GetSize (Arg.ext 7) = some (w, sampleFull.GetSize)
      ∧ w.GetCapacity = (sampleFull.PushBack (Arg.ext 7)).GetCapacity
      ∧ w.toList = (sampleFull.PushBack (Arg.ext 7)).toList)
    ∧ (∃ w : SimpleVector Nat,
        sampleRoom.Insert sampleRoom.GetSize (Arg.ext 7) = some (w, sampleRoom.GetSize)
      ∧ w.GetCapacity = (sampleRoom.PushBack (Arg.ext 7)).GetCapacity
      ∧ w.toList = (sampleRoom.PushBack (Arg.ext 7)).toList) := by
  obtain ⟨w, h1, -, h3, h4, -⟩ := insert_at_end_is_pushback sampleFull 7 (by decide)
  obtain ⟨u, g1, -, g3, g4, -⟩ := insert_at_end_is_pushback sampleRoom 7 (by decide)
  exact ⟨⟨w, h1, h3, h4⟩, ⟨u, g1, g3, g4⟩⟩

/-- C19: evaluation of `Insert(end(), x)` and `PushBack(x)` at the failing input.  On the
vector with the two live elements `1, 2` and capacity `2`, with `x` the element `v[0]`,
both calls take their growth branch.  `Insert` reads the argument before `swap`, while the
old block is still owned, and leaves the live elements `1, 2, 1`; `PushBack` reads it after
`Resize` freed the old block and leaves `1, 2` followed by what that read yields (`900` for
this element type).  Sizes and capacities agree, the live elements do not. -/
theorem insert_at_end_differs_from_pushback_on_own_element :
    sampleFull.Valid ∧ sampleFull.size_ = sampleFull.capacity_ ∧ 0 < sampleFull.capacity_
    ∧ sampleFull.items_.read 0 = 1
    ∧ sampleFull.Insert sampleFull.GetSize (Arg.slot 0) = some (⟨⟨some [1, 2, 1, 0]⟩, 3, 4⟩, 2)
    ∧ sampleFull.PushBack (Arg.slot 0) = ⟨⟨some [1, 2, 900, 103]⟩, 3, 4⟩
    ∧ (⟨⟨some [1, 2, 1, 0]⟩, 3, 4⟩ : SimpleVector Nat).toList = [1, 2, 1]
    ∧ (sampleFull.PushBack (Arg.slot 0)).toList = [1, 2, 900]
    ∧ (⟨⟨some [1, 2, 1, 0]⟩, 3, 4⟩ : SimpleVector Nat).toList
        ≠ (sampleFull.PushBack (Arg.slot 0)).toList := by
  decide

theorem pushAll_snoc [Elem α] (items : List (Arg α)) (item : Arg α) :
    pushAll (items ++ [item]) = (pushAll items).PushBack item := by
  simp [pushAll, List.foldl_append]

/-- Size and capacity after any sequence of calls of `PushBack` on a default-constructed
vector, whatever the arguments refer to. -/
theorem pushAll_arg_inv [Elem α] (items : List (Arg α)) :
    (pushAll items).Valid
    ∧ (pushAll items).size_ = items.length
    ∧ (items = [] → (pushAll items).capacity_ = 0)
    ∧ (items ≠ [] → ∃ e, (pushAll items).capacity_ = 2 ^ e
        ∧ items.length ≤ (pushAll items).capacity_
        ∧ (pushAll items).capacity_ < 2 * items.length) := by
  induction items using List.reverseRecOn with
  | nil =>
    refine ⟨⟨Nat.le_refl _, rfl⟩, rfl, fun _ => rfl, fun h => absurd rfl h⟩
  | append_singleton xs x ih =>
    obtain ⟨hv, hsz, hnil, hcons⟩ := ih
    rw [pushAll_snoc]
    refine ⟨PushBack_arg_valid _ x hv, ?_, ?_, ?_⟩
    · rw [PushBack_arg_size, hsz, List.length_append]
      rfl
    · intro h
      exact absurd h (by simp)
    · intro _
      rw [List.length_append, List.length_singleton]
      by_cases hxs : xs = []
      · have hc0 := hnil hxs
        have hs0 : (pushAll xs).size_ = 0 := by rw [hsz, hxs]; rfl
        have hfull : (pushAll xs).size_ = (pushAll xs).capacity_ := by omega
        have hlen : xs.length = 0 := by rw [hxs]; rfl
        refine ⟨0, ?_, ?_, ?_⟩
        · rw [PushBack_arg_capacity_full _ x hv hfull, hc0]
          rfl
        · rw [PushBack_arg_capacity_full _ x hv hfull, hc0, hlen]
          exact Nat.le_refl _
        · rw [PushBack_arg_capacity_full _ x hv hfull, hc0, hlen]
          show 1 < 2
          omega
      · obtain ⟨e, he, hle, hlt⟩ := hcons hxs
        have hpos : 0 < xs.length := List.length_pos.mpr hxs
        by_cases hfull : (pushAll xs).size_ = (pushAll xs).capacity_
        · have hc : ((pushAll xs).PushBack x).capacity_ = 2 * (pushAll xs).capacity_ := by
            rw [PushBack_arg_capacity_full _ x hv hfull, max_eq_right (by omega)]
            omega
          refine ⟨e + 1, ?_, ?_, ?_⟩
          · rw [hc, he, pow_succ]
            omega
          · rw [hc]
            omega
          · rw [hc]
            omega
        · have hc := PushBack_arg_capacity_room (pushAll xs) x hfull
          refine ⟨e, by rw [hc, he], ?_, ?_⟩
          · rw [hc]
            omega
          · rw [hc]
            omega

theorem pushAll_ext_toList [Elem α] (xs : List α) :
    (pushAll (xs.map Arg.ext)).toList = xs := by
  induction xs using List.reverseRecOn with
  | nil => rfl
  | append_singleton xs x ih =>
    rw [List.map_append, List.map_singleton, pushAll_snoc,
      PushBack_toList _ x (pushAll_arg_inv _).1, ih]

/-- Consecutive calls of `PushBack` on a default-constructed vector: after `k >= 1` calls
the size is `k` and the capacity is the least power of two that is at least `k`, whatever
the arguments refer to; when every argument refers to an object outside the vector, the
live elements are the values passed, in order. -/
theorem pushback_sequence [Elem α] (items : List (Arg α)) (hne : items ≠ []) :
    (pushAll items).GetSize = items.length
    ∧ (∃ e, (pushAll items).GetCapacity = 2 ^ e)
    ∧ items.length ≤ (pushAll items).GetCapacity
    ∧ (∀ e, items.length ≤ 2 ^ e → (pushAll items).GetCapacity ≤ 2 ^ e)
    ∧ (pushAll items).GetCapacity = 2 ^ Nat.clog 2 items.length
    ∧ (∀ xs : List α, items = xs.map Arg.ext → (pushAll items).toList = xs) := by
  obtain ⟨-, hsz, -, hcons⟩ := pushAll_arg_inv items
  obtain ⟨e, he, hle, hlt⟩ := hcons hne
  have hmin : ∀ e', items.length ≤ 2 ^ e' → (pushAll items).capacity_ ≤ 2 ^ e' := by
    intro e' h
    rw [he]
    by_cases hee : e ≤ e'
    · exact Nat.pow_le_pow_right (by omega) hee
    · obtain ⟨d, hd⟩ : ∃ d, e = d + 1 := ⟨e - 1, by omega⟩
      have h1 : 2 ^ e' ≤ 2 ^ d := Nat.pow_le_pow_right (by omega) (by omega)
      rw [he, hd, pow_succ] at hlt
      omega
  refine ⟨hsz, ⟨e, he⟩, hle, hmin, ?_, ?_⟩
  · show (pushAll items).capacity_ = 2 ^ Nat.clog 2 items.length
    apply Nat.le_antisymm
    · exact hmin _ (Nat.le_pow_clog (by omega) _)
    · rw [he]
      apply Nat.pow_le_pow_right (by omega)
      apply (Nat.le_pow_iff_clog_le (by omega)).mp
      rw [← he]
      exact hle
  · intro xs hxs
    rw [hxs]
    exact pushAll_ext_toList xs

theorem pushback_sequence_witness :
    (pushAll [Arg.ext 1, Arg.ext 2, Arg.ext 3, Arg.ext 4, Arg.ext 5] : SimpleVector Nat).GetSize
      = 5
    ∧ (pushAll [Arg.ext 1, Arg.ext 2, Arg.ext 3, Arg.ext 4, Arg.ext 5] :
        SimpleVector Nat).GetCapacity ≤ 2 ^ 3
    ∧ (pushAll [Arg.ext 1, Arg.ext 2, Arg.ext 3, Arg.ext 4, Arg.ext 5] :
        SimpleVector Nat).toList = [1, 2, 3, 4, 5] :=
  ⟨(pushback_sequence [Arg.ext 1, Arg.ext 2, Arg.ext 3, Arg.ext 4, Arg.ext 5] (by decide)).1,
    (pushback_sequence [Arg.ext 1, Arg.ext 2, Arg.ext 3, Arg.ext 4, Arg.ext 5]
      (by decide)).2.2.2.1 3 (by decide),
    (pushback_sequence [Arg.ext 1, Arg.ext 2, Arg.ext 3, Arg.ext 4, Arg.ext 5]
      (by decide)).2.2.2.2.2 [1, 2, 3, 4, 5] rfl⟩

/-- C20: evaluation of two consecutive calls of `PushBack` at the failing input.  On a
default-constructed vector, `v.PushBack(5)` followed by `v.PushBack(v[0])` passes the
values `5, 5`.  The second call finds `size_ == capacity_ == 1`, so `Resize(2)` frees the
block that holds `v[0]` before the argument is read.  Size and capacity are `2` and `2`,
the least power of two that is at least `2`, but the live elements are `5` followed by what
the read of the freed slot yields (`900` for this element type), not `5, 5`. -/
theorem pushback_sequence_reads_freed_argument :
    (pushAll [Arg.ext 5] : SimpleVector Nat) = ⟨⟨some [5]⟩, 1, 1⟩
    ∧ (pushAll [Arg.ext 5] : SimpleVector Nat).items_.read 0 = 5
    ∧ (pushAll [Arg.ext 5, Arg.slot 0] : SimpleVector Nat) = ⟨⟨some [5, 900]⟩, 2, 2⟩
    ∧ (pushAll [Arg.ext 5, Arg.slot 0] : SimpleVector Nat).GetSize = 2
    ∧ (pushAll [Arg.ext 5, Arg.slot 0] : SimpleVector Nat).GetCapacity = 2
    ∧ (pushAll [Arg.ext 5, Arg.slot 0] : SimpleVector Nat).toList = [5, 900]
    ∧ (pushAll [Arg.ext 5, Arg.slot 0] : SimpleVector Nat).toList ≠ [5, 5] := by
  decide

end SimpleVector

end SimpleVectorVerif
